import Mathlib

/-!
Expression-tree calculator (`cacltree.cpp`)

A shallow embedding of the tokenizer, the infix-to-postfix converter, the tree
builder, the evaluator and the `x * A → A * x` rewrite of `cacltree.cpp`, and
theorems relating them to the written specification.

Modelling conventions.
* `std::string` is a `List Char`; a token is a `Token := List Char`.  String
  literals are written `"12".toList`.
* `std::vector<std::string>` is a `List Token`; `std::stack` is a `List` whose
  head is the top of the stack.
* `Node*` is a `Tree`: `Tree.null` is `nullptr`, `Tree.node v l r` a pointer to
  a `Node` with `value = v`, `left = l`, `right = r`.  Trees are never shared,
  so the in-place update of `transform_tree` is the functional rebuild.
* `int` is a 32-bit two's complement integer carried in an `Int`.
-/

namespace CalcTree

/-! ## Strings, characters and tokens -/

/-- A token: the text of a `std::string`. -/
abbrev Token := List Char

/-- The `isspace` of the C locale: space, `\t`, `\n`, `\v`, `\f`, `\r`. -/
def isspace (c : Char) : Bool :=
  c.toNat == 32 || (9 ≤ c.toNat && c.toNat ≤ 13)

/-- The `isdigit` of the C library: `'0'` to `'9'`. -/
def isdigit (c : Char) : Bool :=
  48 ≤ c.toNat && c.toNat ≤ 57

/-- Priority of an operator token; `0` for every other token. -/
def get_priority (op : Token) : Int :=
  if op = "+".toList ∨ op = "-".toList then 1
  else if op = "*".toList ∨ op = "/".toList ∨ op = "%".toList then 2
  else if op = "^".toList then 3
  else 0

/-- All characters of the string are digits (true for the empty string). -/
def is_number (s : Token) : Bool :=
  s.all isdigit

/-- The string is one of the six supported operators. -/
def is_operator (s : Token) : Bool :=
  s == "+".toList || s == "-".toList || s == "*".toList || s == "/".toList
    || s == "%".toList || s == "^".toList

/-! ## Tokenizer -/

/-- State of the scanning loop of `tokenize`: the tokens emitted so far and
the numeric token being accumulated. -/
structure TokState where
  tokens : List Token
  current_token : Token
  deriving DecidableEq, Repr

/-- Emit the accumulated token, if there is one, and clear it. -/
def TokState.flush (st : TokState) : TokState :=
  if st.current_token ≠ [] then
    { tokens := st.tokens ++ [st.current_token], current_token := [] }
  else st

/-- One iteration of the `for (char c : expression)` loop of `tokenize`. -/
def tokenizeStep (st : TokState) (c : Char) : TokState :=
  if isspace c then
    st.flush
  else if isdigit c then
    { st with current_token := st.current_token ++ [c] }
  else if is_operator [c] || c == '(' || c == ')' then
    { st.flush with tokens := st.flush.tokens ++ [[c]] }
  else if c == 'x' then
    { st.flush with tokens := st.flush.tokens ++ ["x".toList] }
  else
    st

/-- Lexical analysis of an expression. -/
def tokenize (expression : List Char) : List Token :=
  ((expression.foldl tokenizeStep { tokens := [], current_token := [] }).flush).tokens

/-! ## Expression trees -/

/-- A `Node*`: either `nullptr` or a node with a value and two child links. -/
inductive Tree where
  | null : Tree
  | node (value : Token) (left right : Tree) : Tree
  deriving DecidableEq, Repr

/-- The result of `new Node(val)`: both child links are `nullptr`. -/
def Tree.leaf (val : Token) : Tree := .node val .null .null

/-- The test `p && p->value == s` on a node pointer `p`. -/
def Tree.valueIs : Tree → Token → Bool
  | .null, _ => false
  | .node value _ _, s => value == s

/-- The pointer is `nullptr`. -/
def Tree.isNull : Tree → Bool
  | .null => true
  | .node _ _ _ => false

/-! ## Tree builder -/

/-- One iteration of the loop of `build_expression_tree` on the node stack.
`top()`/`pop()` on an empty stack is undefined behaviour: `none`. -/
def buildStep (node_stack : List Tree) (token : Token) : Option (List Tree) :=
  if is_number token || token == "x".toList then
    some (Tree.leaf token :: node_stack)
  else if is_operator token then
    match node_stack with
    | right_operand :: left_operand :: rest =>
        some (Tree.node token left_operand right_operand :: rest)
    | _ => none
  else
    some node_stack

/-- The loop of `build_expression_tree` from a given node stack. -/
def buildLoop : List Token → List Tree → Option (List Tree)
  | [], node_stack => some node_stack
  | token :: rest, node_stack =>
      match buildStep node_stack token with
      | some node_stack' => buildLoop rest node_stack'
      | none => none

/-- Build the expression tree of a postfix token sequence: the node on top of
the stack after the loop (`none` where the source has undefined behaviour). -/
def build_expression_tree (postfix_tokens : List Token) : Option Tree :=
  match buildLoop postfix_tokens [] with
  | some (top :: _) => some top
  | _ => none

/-! ## Infix to postfix -/

/-- State of `infix_to_postfix`: the output vector and the operator stack. -/
structure PostfixState where
  postfix_tokens : List Token
  operator_stack : List Token
  deriving DecidableEq, Repr

/-- The loop `while (!operator_stack.empty() && operator_stack.top() != "(")`
moving the top of the stack to the output. -/
def popUntilParen : List Token → List Token → PostfixState
  | postfix_tokens, [] => ⟨postfix_tokens, []⟩
  | postfix_tokens, top :: rest =>
      if top ≠ "(".toList then popUntilParen (postfix_tokens ++ [top]) rest
      else ⟨postfix_tokens, top :: rest⟩

/-- The loop `while (!operator_stack.empty() &&
get_priority(operator_stack.top()) >= get_priority(token))`. -/
def popWhilePriority (token : Token) : List Token → List Token → PostfixState
  | postfix_tokens, [] => ⟨postfix_tokens, []⟩
  | postfix_tokens, top :: rest =>
      if get_priority top ≥ get_priority token then
        popWhilePriority token (postfix_tokens ++ [top]) rest
      else ⟨postfix_tokens, top :: rest⟩

/-- The final loop `while (!operator_stack.empty())`. -/
def popAll : List Token → List Token → List Token
  | postfix_tokens, [] => postfix_tokens
  | postfix_tokens, top :: rest => popAll (postfix_tokens ++ [top]) rest

/-- One iteration of the token loop of `infix_to_postfix`. -/
def infixStep (st : PostfixState) (token : Token) : PostfixState :=
  if is_number token || token == "x".toList then
    { st with postfix_tokens := st.postfix_tokens ++ [token] }
  else if token == "(".toList then
    { st with operator_stack := token :: st.operator_stack }
  else if token == ")".toList then
    let st1 := popUntilParen st.postfix_tokens st.operator_stack
    match st1.operator_stack with
    | top :: rest => if top == "(".toList then ⟨st1.postfix_tokens, rest⟩ else st1
    | [] => st1
  else if is_operator token then
    let st1 := popWhilePriority token st.postfix_tokens st.operator_stack
    { st1 with operator_stack := token :: st1.operator_stack }
  else
    st

/-- Shunting-yard conversion of an infix token sequence to postfix. -/
def infix_to_postfix (infix_tokens : List Token) : List Token :=
  let st := infix_tokens.foldl infixStep ⟨[], []⟩
  popAll st.postfix_tokens st.operator_stack

/-! ## Evaluator -/

/-- Ways an evaluation can fail: the two exceptions of `std::stoi`, the
arithmetic fault of a division or remainder whose result is undefined (zero
divisor, or `INT_MIN` by `-1`), and a `double` that does not convert to `int`. -/
inductive Fault where
  | invalid_argument
  | out_of_range
  | arithmetic
  | conversion
  deriving DecidableEq, Repr

/-- Outcome of an evaluation: an `int`, or a fault. -/
inductive Outcome where
  | value (n : Int)
  | fault (f : Fault)
  deriving DecidableEq, Repr

/-- Sequencing of two computations: a fault of the first one propagates. -/
def Outcome.bind (o : Outcome) (k : Int → Outcome) : Outcome :=
  match o with
  | .value n => k n
  | .fault f => .fault f

/-- Smallest value of `int`. -/
def INT_MIN : Int := -2147483648

/-- Largest value of `int`. -/
def INT_MAX : Int := 2147483647

/-- Reduction of a mathematical integer to the 32-bit two's complement range. -/
def wrapInt (z : Int) : Int :=
  (z + 2147483648) % 4294967296 - 2147483648

/-- The number written by a string of decimal digits. -/
def digitsValue (s : Token) : Nat :=
  s.foldl (fun acc c => 10 * acc + (c.toNat - 48)) 0

/-- The call `std::stoi(s)` on a string of digits (the only strings `evaluate`
passes): `invalid_argument` on the empty string, `out_of_range` above
`INT_MAX`. -/
def stoi (s : Token) : Outcome :=
  if s = [] then .fault .invalid_argument
  else if (digitsValue s : Int) ≤ INT_MAX then .value (digitsValue s)
  else .fault .out_of_range

/-- Value of the expression tree for a value of `x`.  The parameter `pow` is
`std::pow` on two `int` arguments followed by the conversion of its `double`
result to `int`.  The left subtree is evaluated before the right one and a
fault of either ends the evaluation; `+`, `-` and `*` wrap to 32 bits; `/` and
`%` truncate toward zero and fault on a zero divisor and on `INT_MIN` by `-1`. -/
def evaluate (pow : Int → Int → Outcome) : Tree → Int → Outcome
  | .null, _ => .value 0
  | .node value left right, x_value =>
      if is_number value then
        stoi value
      else if value == "x".toList then
        .value x_value
      else
        (evaluate pow left x_value).bind fun left_val =>
        (evaluate pow right x_value).bind fun right_val =>
          if value == "+".toList then .value (wrapInt (left_val + right_val))
          else if value == "-".toList then .value (wrapInt (left_val - right_val))
          else if value == "*".toList then .value (wrapInt (left_val * right_val))
          else if value == "/".toList then
            if right_val = 0 ∨ (left_val = INT_MIN ∧ right_val = -1) then .fault .arithmetic
            else .value (Int.tdiv left_val right_val)
          else if value == "%".toList then
            if right_val = 0 ∨ (left_val = INT_MIN ∧ right_val = -1) then .fault .arithmetic
            else .value (Int.tmod left_val right_val)
          else if value == "^".toList then pow left_val right_val
          else .value 0

/-! ## Tree transformer -/

/-- Rewrite every `x * A` into `A * x`, children first. -/
def transform_tree : Tree → Tree
  | .null => .null
  | .node value left right =>
      let left' := transform_tree left
      let right' := transform_tree right
      if value == "*".toList && left'.valueIs "x".toList then
        .node value right' left'
      else
        .node value left' right'

/-! ## Vocabulary of the specification -/

/-- An operand token, as the converter and the builder test it. -/
def isOperand (token : Token) : Bool :=
  is_number token || token == "x".toList

/-- The text of a leaf of a well-formed tree: `x` or a non-empty digit string. -/
def isLeafText (v : Token) : Bool :=
  v == "x".toList || (v != [] && v.all isdigit)

/-- A well-formed expression tree: a leaf holding `x` or a non-empty digit
string, or an operator node with two well-formed children. -/
def wellFormed : Tree → Bool
  | .null => false
  | .node v l r =>
      (l.isNull && r.isNull && isLeafText v) ||
        (is_operator v && wellFormed l && wellFormed r)

/-- Post-order traversal: left subtree, right subtree, node. -/
def postorder : Tree → List Token
  | .null => []
  | .node v l r => postorder l ++ postorder r ++ [v]

/-- Infix rendering with every operator sub-expression between parentheses. -/
def infixParen : Tree → List Token
  | .null => []
  | .node v l r =>
      if l.isNull && r.isNull then [v]
      else ["(".toList] ++ infixParen l ++ [v] ++ infixParen r ++ [")".toList]

/-- Infix rendering as `infixParen`, without the outermost pair of parentheses. -/
def infixOuter : Tree → List Token
  | .null => []
  | .node v l r =>
      if l.isNull && r.isNull then [v]
      else infixParen l ++ [v] ++ infixParen r

/-- Some `*` node of the tree has a left child whose value is `x`. -/
def hasStarLeftX : Tree → Bool
  | .null => false
  | .node v l r =>
      (v == "*".toList && l.valueIs "x".toList) || hasStarLeftX l || hasStarLeftX r

/-- Some `*` node of the tree has two children whose values are both `x`. -/
def hasStarBothX : Tree → Bool
  | .null => false
  | .node v l r =>
      (v == "*".toList && l.valueIs "x".toList && r.valueIs "x".toList)
        || hasStarBothX l || hasStarBothX r

/-- The nodes of a tree, each one as the subtree it is the root of. -/
def subtrees : Tree → List Tree
  | .null => []
  | .node v l r => .node v l r :: (subtrees l ++ subtrees r)

/-- Every node whose value is `x` is a leaf: both its child links are null. -/
def xLeaves : Tree → Bool
  | .null => true
  | .node v l r =>
      (!(v == "x".toList) || (l.isNull && r.isNull)) && xLeaves l && xLeaves r

/-- The characters `tokenize` emits as a one-character token: the six
operators, the two parentheses and `x`. -/
def symbolChars : List Char := ['+', '-', '*', '/', '%', '^', '(', ')', 'x']

/-- A character `tokenize` has no branch for: not whitespace, not a digit, not
an operator or a parenthesis, not `x`. -/
def isIgnored (c : Char) : Bool :=
  !isspace c && !isdigit c && !(is_operator [c] || c == '(' || c == ')') && !(c == 'x')

/-- The input with the ignored characters removed. -/
def significant (s : List Char) : List Char :=
  s.filter fun c => !isIgnored c

/-- Invariant of the scanning loop against the significant part `p` of the
input read so far: each emitted token is a non-empty contiguous run of `p`, and
the token being accumulated is the end of `p`. -/
def TokState.RunsOf (st : TokState) (p : List Char) : Prop :=
  (∀ tok ∈ st.tokens, tok ≠ [] ∧ tok <:+: p) ∧ st.current_token <:+ p

/-- The string does not end with a digit. -/
def noDigitAtEnd (u : List Char) : Bool :=
  match u.getLast? with
  | some c => !isdigit c
  | none => true

/-- The string does not start with a digit. -/
def noDigitAtStart (v : List Char) : Bool :=
  match v.head? with
  | some c => !isdigit c
  | none => true

/-- Invariant of the scanning loop against the significant part `p` of the
input read so far: each emitted numeric token stands in `p` after something
that does not end with a digit and right before a character that is not a
digit, and the token being accumulated is the end of `p`, after something that
does not end with a digit. -/
def TokState.MaximalRuns (st : TokState) (p : List Char) : Prop :=
  (∀ tok ∈ st.tokens, is_number tok = true →
      ∃ (u : List Char) (c : Char) (v : List Char),
        p = u ++ tok ++ c :: v ∧ noDigitAtEnd u = true ∧ isdigit c = false) ∧
    ∃ u : List Char, p = u ++ st.current_token ∧ noDigitAtEnd u = true

/-- Invariant of the scanning loop: no whitespace in any token. -/
def TokState.NoSpace (st : TokState) : Prop :=
  (∀ tok ∈ st.tokens, ∀ c ∈ tok, isspace c = false) ∧
    ∀ c ∈ st.current_token, isspace c = false

/-- The full pipeline on an expression string: tokenize, convert to postfix,
build the tree, evaluate it at `x_value` (`none` where the builder has
undefined behaviour). -/
def evaluate_expression (pow : Int → Int → Outcome) (expression : List Char)
    (x_value : Int) : Option Outcome :=
  (build_expression_tree ( infix_to_postfix (tokenize expression))).map
    fun root => evaluate pow root x_value

/-- Model of the standard library call `std::pow(l, r)` on two `int`
arguments, with the conversion of its `double` result to `int`: real-valued
exponentiation, then truncation toward zero.  It stands for a `std::pow` that
returns the exact power wherever a `double` holds it, which covers every
result in the range of `int`; the rounding of a particular library is not
modelled.  A result outside the range of `int` (also the infinite `0` to a
negative power) has no defined conversion to `int` in C++ (compiled for x86 it
comes out as `INT_MIN`); the model marks it as a fault. -/
def pow_to_int (l r : Int) : Outcome :=
  if 0 ≤ r then
    if INT_MIN ≤ l ^ r.toNat ∧ l ^ r.toNat ≤ INT_MAX then .value (l ^ r.toNat)
    else .fault .conversion
  else if l = 0 then .fault .conversion
  else if l = 1 then .value 1
  else if l = -1 then .value (if r % 2 = 0 then 1 else -1)
  else .value 0

/-- The value of the root node, if there is one. -/
def Tree.rootValue : Tree → Option Token
  | .null => none
  | .node v _ _ => some v

/-- The values of all nodes of the tree, node first, then left, then right. -/
def nodeValues : Tree → List Token
  | .null => []
  | .node v l r => v :: (nodeValues l ++ nodeValues r)

/-- The two trees are equal up to exchanging the two children of `*` nodes. -/
def starSwapEq : Tree → Tree → Bool
  | .null, .null => true
  | .null, .node _ _ _ => false
  | .node _ _ _, .null => false
  | .node v l r, .node v2 l2 r2 =>
      v == v2 && ((starSwapEq l l2 && starSwapEq r r2) ||
        (v == "*".toList && starSwapEq l r2 && starSwapEq r l2))

/-- The token is a parenthesis. -/
def isParen (token : Token) : Bool :=
  token == "(".toList || token == ")".toList

/-- The tokens without the parentheses. -/
def withoutParens (ts : List Token) : List Token :=
  ts.filter fun t => !isParen t

/-- Every token is an operand, an operator or a parenthesis. -/
def onlyExpressionTokens (ts : List Token) : Bool :=
  ts.all fun t => isOperand t || is_operator t || isParen t

/-- Balanced parentheses: every beginning of the sequence has at least as many
`(` as `)`, and the whole sequence has as many `(` as `)`. -/
def balanced (ts : List Token) : Bool :=
  ((List.range (ts.length + 1)).all fun n =>
      decide ((ts.take n).count ")".toList ≤ (ts.take n).count "(".toList)) &&
    decide (ts.count "(".toList = ts.count ")".toList)

/-- Number of `(` left open after scanning the tokens from `d` open ones, a
`)` closing one if there is one. -/
def parenDepth : Nat → List Token → Nat
  | d, [] => d
  | d, t :: ts =>
      if t = "(".toList then parenDepth (d + 1) ts
      else if t = ")".toList then parenDepth (d - 1) ts
      else parenDepth d ts

/-! ## Facts about tokens -/

theorem is_operator_cases {v : Token} (h : is_operator v = true) :
    v = "+".toList ∨ v = "-".toList ∨ v = "*".toList ∨ v = "/".toList ∨
      v = "%".toList ∨ v = "^".toList := by
  simpa [is_operator, or_assoc] using h

theorem operator_not_operand {v : Token} (h : is_operator v = true) :
    (is_number v || v == "x".toList) = false := by
  rcases is_operator_cases h with h | h | h | h | h | h <;> subst h <;> decide

theorem operator_not_open {v : Token} (h : is_operator v = true) :
    (v == "(".toList) = false := by
  rcases is_operator_cases h with h | h | h | h | h | h <;> subst h <;> decide

theorem operator_not_close {v : Token} (h : is_operator v = true) :
    (v == ")".toList) = false := by
  rcases is_operator_cases h with h | h | h | h | h | h <;> subst h <;> decide

theorem operator_priority_pos {v : Token} (h : is_operator v = true) :
    0 < get_priority v := by
  rcases is_operator_cases h with h | h | h | h | h | h <;> subst h <;> decide

theorem leafText_operand {v : Token} (h : isLeafText v = true) :
    (is_number v || v == "x".toList) = true := by
  simp only [isLeafText, Bool.or_eq_true, Bool.and_eq_true] at h
  rcases h with h | ⟨_, h⟩
  · rw [Bool.or_eq_true]; exact Or.inr h
  · rw [Bool.or_eq_true]; exact Or.inl h

/-! ## Steps of the converter -/

theorem popAll_eq (out stack : List Token) : popAll out stack = out ++ stack := by
  induction stack generalizing out with
  | nil => simp [popAll]
  | cons top rest ih => simp [popAll, ih]

theorem infixStep_operand (st : PostfixState) {v : Token}
    (h : (is_number v || v == "x".toList) = true) :
    infixStep st v = ⟨st.postfix_tokens ++ [v], st.operator_stack⟩ := by
  simp only [infixStep, h, if_true]

theorem infixStep_open (st : PostfixState) :
    infixStep st "(".toList = ⟨st.postfix_tokens, "(".toList :: st.operator_stack⟩ := by
  have h1 : (is_number "(".toList || "(".toList == "x".toList) = false := by decide
  simp only [infixStep, h1, beq_self_eq_true, if_true, Bool.false_eq_true, if_false]

theorem infixStep_operator_empty (out : List Token) {v : Token}
    (h : is_operator v = true) :
    infixStep ⟨out, []⟩ v = ⟨out, [v]⟩ := by
  simp only [infixStep, operator_not_operand h, operator_not_open h, operator_not_close h, h,
    popWhilePriority, if_true, Bool.false_eq_true, if_false]

theorem infixStep_operator_paren (out stack : List Token) {v : Token}
    (h : is_operator v = true) :
    infixStep ⟨out, "(".toList :: stack⟩ v = ⟨out, v :: "(".toList :: stack⟩ := by
  have hp : ¬ (get_priority "(".toList ≥ get_priority v) := by
    have h0 : get_priority "(".toList = 0 := by decide
    have := operator_priority_pos h
    omega
  simp only [infixStep, operator_not_operand h, operator_not_open h, operator_not_close h, h,
    popWhilePriority, hp, if_true, Bool.false_eq_true, if_false]

theorem infixStep_close (out stack : List Token) {v : Token}
    (h : is_operator v = true) :
    infixStep ⟨out, v :: "(".toList :: stack⟩ ")".toList = ⟨out ++ [v], stack⟩ := by
  have h1 : (is_number ")".toList || ")".toList == "x".toList) = false := by decide
  have h2 : (")".toList == "(".toList) = false := by decide
  have h3 : v ≠ "(".toList := by
    have := operator_not_open h
    simpa using this
  simp only [infixStep, h1, h2, popUntilParen, h3, ne_eq, not_false_eq_true, not_true_eq_false,
    beq_self_eq_true, if_true, Bool.false_eq_true, if_false]

theorem wellFormed_node {v : Token} {l r : Tree} (h : wellFormed (.node v l r) = true) :
    (l = .null ∧ r = .null ∧ isLeafText v = true) ∨
      ((l.isNull && r.isNull) = false ∧ is_operator v = true ∧
        wellFormed l = true ∧ wellFormed r = true) := by
  simp only [wellFormed, Bool.or_eq_true, Bool.and_eq_true] at h
  rcases h with ⟨⟨hl, hr⟩, hv⟩ | ⟨⟨hv, hl⟩, hr⟩
  · left
    cases l <;> cases r <;> simp_all [Tree.isNull]
  · right
    refine ⟨?_, hv, hl, hr⟩
    cases l
    · simp [wellFormed] at hl
    · simp [Tree.isNull]

/-- Scanning the parenthesised rendering of a well-formed tree appends its
post-order traversal to the output and leaves the operator stack as it was. -/
theorem foldl_infixParen (t : Tree) (h : wellFormed t = true) (out stack rest : List Token) :
    (infixParen t ++ rest).foldl infixStep ⟨out, stack⟩ =
      rest.foldl infixStep ⟨out ++ postorder t, stack⟩ := by
  induction t generalizing out stack rest with
  | null => simp [wellFormed] at h
  | node v l r ihl ihr =>
    rcases wellFormed_node h with ⟨hl, hr, hv⟩ | ⟨hn, hv, hl, hr⟩
    · subst hl; subst hr
      simp [infixParen, postorder, Tree.isNull, infixStep_operand _ (leafText_operand hv)]
    · simp only [infixParen, hn, Bool.false_eq_true, if_false, List.append_assoc,
        List.singleton_append, List.cons_append, List.nil_append, List.foldl_cons,
        infixStep_open]
      rw [ihl hl, List.foldl_cons, infixStep_operator_paren _ _ hv, ihr hr, List.foldl_cons,
        infixStep_close _ _ hv]
      simp [postorder]

/-- C1. On the infix rendering of a well-formed expression tree in which every
operator sub-expression stands between parentheses, with or without the
outermost pair, `infix_to_postfix` returns the post-order traversal of the tree. -/
theorem infix_to_postfix_parenthesised (t : Tree) (h : wellFormed t = true) :
    infix_to_postfix (infixParen t) = postorder t ∧
      infix_to_postfix (infixOuter t) = postorder t := by
  constructor
  · have := foldl_infixParen t h [] [] []
    simp only [List.append_nil, List.foldl_nil, List.nil_append] at this
    simp [ infix_to_postfix, this, popAll_eq]
  · cases t with
    | null => simp [wellFormed] at h
    | node v l r =>
      rcases wellFormed_node h with ⟨hl, hr, hv⟩ | ⟨hn, hv, hl, hr⟩
      · subst hl; subst hr
        simp [ infix_to_postfix, infixOuter, postorder, Tree.isNull,
          infixStep_operand _ (leafText_operand hv), popAll_eq]
      · have h2 := foldl_infixParen r hr (postorder l) [v] []
        simp only [List.append_nil, List.foldl_nil] at h2
        simp only [ infix_to_postfix, infixOuter, hn, Bool.false_eq_true, if_false,
          List.append_assoc, List.singleton_append, List.cons_append, List.nil_append]
        rw [foldl_infixParen l hl, List.nil_append, List.foldl_cons,
          infixStep_operator_empty _ hv, h2]
        simp [popAll_eq, postorder]

/-- C1, at the expression `(1+2)*3` of the specification. -/
theorem infix_to_postfix_parenthesised_witness :
    wellFormed (.node "*".toList
        (.node "+".toList (.leaf "1".toList) (.leaf "2".toList)) (.leaf "3".toList)) = true ∧
    infixOuter (.node "*".toList
        (.node "+".toList (.leaf "1".toList) (.leaf "2".toList)) (.leaf "3".toList)) =
      ["(".toList, "1".toList, "+".toList, "2".toList, ")".toList, "*".toList, "3".toList] ∧
    postorder (.node "*".toList
        (.node "+".toList (.leaf "1".toList) (.leaf "2".toList)) (.leaf "3".toList)) =
      ["1".toList, "2".toList, "+".toList, "3".toList, "*".toList] ∧
    infix_to_postfix (infixOuter (.node "*".toList
        (.node "+".toList (.leaf "1".toList) (.leaf "2".toList)) (.leaf "3".toList))) =
      postorder (.node "*".toList
        (.node "+".toList (.leaf "1".toList) (.leaf "2".toList)) (.leaf "3".toList)) :=
  ⟨by decide, by decide, by decide,
    (infix_to_postfix_parenthesised _ (by decide)).2⟩

/-- The converter on `a o1 b`, then the operator `o2`: `o1` is popped exactly
when its priority is at least that of `o2`. -/
theorem infixStep_second_operator (a b o1 o2 : Token) (h2 : is_operator o2 = true) :
    infixStep ⟨[a, b], [o1]⟩ o2 =
      if get_priority o1 ≥ get_priority o2 then ⟨[a, b, o1], [o2]⟩ else ⟨[a, b], [o2, o1]⟩ := by
  simp only [infixStep, operator_not_operand h2, operator_not_open h2, operator_not_close h2, h2,
    popWhilePriority, if_true, Bool.false_eq_true, if_false]
  by_cases hp : get_priority o1 ≥ get_priority o2
  · simp [hp, popWhilePriority]
  · simp [hp]

/-- C2. For operand tokens `a`, `b`, `c` and operators `o1`, `o2`, the postfix
form of `a o1 b o2 c` is `a b o1 c o2` when the priority of `o1` is greater than
or equal to that of `o2`, and `a b c o2 o1` otherwise; `^` is treated as the
other operators. -/
theorem infix_to_postfix_priority (a b c o1 o2 : Token)
    (ha : isOperand a = true) (hb : isOperand b = true) (hc : isOperand c = true)
    (h1 : is_operator o1 = true) (h2 : is_operator o2 = true) :
    infix_to_postfix [a, o1, b, o2, c] =
      if get_priority o1 ≥ get_priority o2 then [a, b, o1, c, o2] else [a, b, c, o2, o1] := by
  have s1 : infixStep ⟨[], []⟩ a = ⟨[a], []⟩ := by rw [infixStep_operand _ ha]; rfl
  have s2 : infixStep ⟨[a], []⟩ o1 = ⟨[a], [o1]⟩ := infixStep_operator_empty _ h1
  have s3 : infixStep ⟨[a], [o1]⟩ b = ⟨[a, b], [o1]⟩ := by rw [infixStep_operand _ hb]; rfl
  simp only [ infix_to_postfix, List.foldl_cons, List.foldl_nil, s1, s2, s3,
    infixStep_second_operator a b o1 o2 h2]
  by_cases hp : get_priority o1 ≥ get_priority o2
  · simp only [hp, if_true, infixStep_operand _ hc, popAll_eq]
    rfl
  · simp only [hp, if_false, infixStep_operand _ hc, popAll_eq]
    rfl

/-- C2, at the two expressions of the specification: `12+x*3` and `2^3^2`. -/
theorem infix_to_postfix_priority_witness :
    infix_to_postfix ["12".toList, "+".toList, "x".toList, "*".toList, "3".toList] =
      ["12".toList, "x".toList, "3".toList, "*".toList, "+".toList] ∧
    infix_to_postfix ["2".toList, "^".toList, "3".toList, "^".toList, "2".toList] =
      ["2".toList, "3".toList, "^".toList, "2".toList, "^".toList] :=
  ⟨(infix_to_postfix_priority "12".toList "x".toList "3".toList "+".toList "*".toList
      (by decide) (by decide) (by decide) (by decide) (by decide)).trans (by decide),
   (infix_to_postfix_priority "2".toList "3".toList "2".toList "^".toList "^".toList
      (by decide) (by decide) (by decide) (by decide) (by decide)).trans (by decide)⟩

/-! ## Tree builder -/

theorem buildStep_operand (stack : List Tree) {v : Token}
    (h : (is_number v || v == "x".toList) = true) :
    buildStep stack v = some (Tree.leaf v :: stack) := by
  simp only [buildStep, h, if_true]

theorem buildStep_operator (l r : Tree) (stack : List Tree) {v : Token}
    (h : is_operator v = true) :
    buildStep (r :: l :: stack) v = some (Tree.node v l r :: stack) := by
  simp only [buildStep, operator_not_operand h, h, if_true, Bool.false_eq_true, if_false]

/-- Reading the post-order traversal of a well-formed tree pushes that tree on
the node stack. -/
theorem buildLoop_postorder (t : Tree) (h : wellFormed t = true)
    (rest : List Token) (stack : List Tree) :
    buildLoop (postorder t ++ rest) stack = buildLoop rest (t :: stack) := by
  induction t generalizing rest stack with
  | null => simp [wellFormed] at h
  | node v l r ihl ihr =>
    rcases wellFormed_node h with ⟨hl, hr, hv⟩ | ⟨_, hv, hl, hr⟩
    · subst hl; subst hr
      simp [postorder, buildLoop, buildStep_operand _ (leafText_operand hv), Tree.leaf]
    · simp only [postorder, List.append_assoc]
      rw [ihl hl, ihr hr]
      simp [buildLoop, buildStep_operator _ _ _ hv]

/-- C3. For every well-formed expression tree `t`, `build_expression_tree` on
the post-order traversal of `t` succeeds, without popping an empty stack, and
returns `t`; for operands `a`, `b` and an operator `op`, the postfix `a b op`
gives the node `op` with left child `a` and right child `b`. -/
theorem build_expression_tree_postorder (t : Tree) (h : wellFormed t = true) :
    build_expression_tree (postorder t) = some t ∧
      ∀ a b op : Token, isOperand a = true → isOperand b = true → is_operator op = true →
        build_expression_tree [a, b, op] = some (.node op (.leaf a) (.leaf b)) := by
  constructor
  · have := buildLoop_postorder t h [] []
    simp only [List.append_nil] at this
    simp [build_expression_tree, this, buildLoop]
  · intro a b op ha hb hop
    simp [build_expression_tree, buildLoop, buildStep_operand _ ha, buildStep_operand _ hb,
      buildStep_operator _ _ _ hop]

/-- C3, at the tree of `(1+2)*3` and at the postfix `7 x -`. -/
theorem build_expression_tree_postorder_witness :
    wellFormed (.node "*".toList
        (.node "+".toList (.leaf "1".toList) (.leaf "2".toList)) (.leaf "3".toList)) = true ∧
    build_expression_tree ["1".toList, "2".toList, "+".toList, "3".toList, "*".toList] =
      some (.node "*".toList
        (.node "+".toList (.leaf "1".toList) (.leaf "2".toList)) (.leaf "3".toList)) ∧
    build_expression_tree ["7".toList, "x".toList, "-".toList] =
      some (.node "-".toList (.leaf "7".toList) (.leaf "x".toList)) :=
  ⟨by decide,
    (build_expression_tree_postorder (.node "*".toList
        (.node "+".toList (.leaf "1".toList) (.leaf "2".toList)) (.leaf "3".toList))
      (by decide)).1,
    (build_expression_tree_postorder (.leaf "x".toList) (by decide)).2
      "7".toList "x".toList "-".toList (by decide) (by decide) (by decide)⟩

/-! ## Tree transformer and evaluator -/

theorem transform_tree_valueIs (t : Tree) (s : Token) :
    (transform_tree t).valueIs s = t.valueIs s := by
  cases t with
  | null => rfl
  | node v l r =>
    simp only [transform_tree]
    split <;> rfl

theorem transform_tree_isNull (t : Tree) : (transform_tree t).isNull = t.isNull := by
  cases t with
  | null => rfl
  | node v l r =>
    simp only [transform_tree]
    split <;> rfl

theorem evaluate_of_valueIs_x (pow : Int → Int → Outcome) {t : Tree} (x : Int)
    (h : t.valueIs "x".toList = true) : evaluate pow t x = .value x := by
  cases t with
  | null => simp [Tree.valueIs] at h
  | node v l r =>
    simp only [Tree.valueIs, beq_iff_eq] at h
    subst h
    have h1 : is_number "x".toList = false := by decide
    simp only [evaluate, h1, Bool.false_eq_true, if_false, beq_self_eq_true, if_true]

theorem evaluate_star (pow : Int → Int → Outcome) (l r : Tree) (x : Int) :
    evaluate pow (.node "*".toList l r) x =
      (evaluate pow l x).bind fun left_val =>
        (evaluate pow r x).bind fun right_val => .value (wrapInt (left_val * right_val)) := by
  have h1 : is_number "*".toList = false := by decide
  have h2 : ("*".toList == "x".toList) = false := by decide
  have h3 : ("*".toList == "+".toList) = false := by decide
  have h4 : ("*".toList == "-".toList) = false := by decide
  simp only [evaluate, h1, h2, h3, h4, Bool.false_eq_true, if_false, beq_self_eq_true, if_true]

/-- C4. For every tree `t` and every value of `x`, the transformed tree
evaluates to the same outcome as `t`: the same integer, or the same fault. -/
theorem evaluate_transform_tree (pow : Int → Int → Outcome) (t : Tree) (x : Int) :
    evaluate pow (transform_tree t) x = evaluate pow t x := by
  induction t with
  | null => rfl
  | node v l r ihl ihr =>
    simp only [transform_tree]
    split
    · rename_i hswap
      simp only [Bool.and_eq_true, beq_iff_eq] at hswap
      obtain ⟨hv, hx⟩ := hswap
      subst hv
      have hl : evaluate pow l x = .value x := by
        rw [← ihl]; exact evaluate_of_valueIs_x pow x hx
      rw [evaluate_star, evaluate_star, ihl, ihr, hl]
      cases evaluate pow r x with
      | value n => simp [Outcome.bind, mul_comm]
      | fault f => simp [Outcome.bind]
    · simp only [evaluate, ihl, ihr]

/-- C4, at the tree of `x * 3 + 5` with `x = 2`: the value is 11 before and
after the transformation. -/
theorem evaluate_transform_tree_witness :
    evaluate (fun _ _ => .fault .conversion)
        (.node "+".toList (.node "*".toList (.leaf "x".toList) (.leaf "3".toList))
          (.leaf "5".toList)) 2 = .value 11 ∧
    evaluate (fun _ _ => .fault .conversion)
        (transform_tree (.node "+".toList
          (.node "*".toList (.leaf "x".toList) (.leaf "3".toList)) (.leaf "5".toList))) 2
      = .value 11 :=
  ⟨by decide,
    (evaluate_transform_tree _ (.node "+".toList
      (.node "*".toList (.leaf "x".toList) (.leaf "3".toList)) (.leaf "5".toList)) 2).trans
      (by decide)⟩

theorem transform_tree_star_x (l r : Tree) (h : l.valueIs "x".toList = true) :
    transform_tree (.node "*".toList l r) =
      .node "*".toList (transform_tree r) (transform_tree l) := by
  simp only [transform_tree, transform_tree_valueIs, h, beq_self_eq_true, Bool.and_self, if_true]

theorem hasStarLeftX_transform_tree (t : Tree) :
    hasStarLeftX (transform_tree t) = hasStarBothX t := by
  induction t with
  | null => rfl
  | node v l r ihl ihr =>
    simp only [transform_tree]
    split
    · rename_i hswap
      simp only [Bool.and_eq_true, transform_tree_valueIs] at hswap
      simp only [hasStarLeftX, hasStarBothX, ihl, ihr, transform_tree_valueIs, hswap.1, hswap.2,
        Bool.true_and]
      cases r.valueIs "x".toList <;> cases hasStarBothX l <;> cases hasStarBothX r <;> rfl
    · rename_i hswap
      simp only [transform_tree_valueIs] at hswap
      simp only [hasStarLeftX, hasStarBothX, ihl, ihr, transform_tree_valueIs, hswap,
        Bool.false_and]

theorem transform_tree_mem_subtrees {s t : Tree} (h : s ∈ subtrees t) :
    transform_tree s ∈ subtrees (transform_tree t) := by
  induction t with
  | null => simp [subtrees] at h
  | node v l r ihl ihr =>
    simp only [subtrees, List.mem_cons, List.mem_append] at h
    rcases h with h | h | h
    · subst h
      cases htr : transform_tree (.node v l r) with
      | null => simp only [transform_tree] at htr; split at htr <;> cases htr
      | node v2 l2 r2 => simp [subtrees]
    · have := ihl h
      simp only [transform_tree]
      split <;> simp [subtrees, this]
    · have := ihr h
      simp only [transform_tree]
      split <;> simp [subtrees, this]

/-- C5, as the code has it. The transformed tree has a `*` node whose left
child is `x` exactly when `t` has a `*` node both of whose children are `x`;
and every `*` node of `t` whose left child is `x` ends, in the transformed tree,
with `x` as its right child, its left child being `x` exactly when the right
child of that node in `t` was `x` too. -/
theorem transform_tree_star_left (t : Tree) :
    hasStarLeftX (transform_tree t) = hasStarBothX t ∧
      ∀ l r : Tree, Tree.node "*".toList l r ∈ subtrees t → l.valueIs "x".toList = true →
        Tree.node "*".toList (transform_tree r) (transform_tree l) ∈ subtrees (transform_tree t) ∧
          (transform_tree l).valueIs "x".toList = true ∧
          (transform_tree r).valueIs "x".toList = r.valueIs "x".toList := by
  refine ⟨hasStarLeftX_transform_tree t, ?_⟩
  intro l r hmem hx
  refine ⟨?_, ?_, transform_tree_valueIs r _⟩
  · rw [← transform_tree_star_x l r hx]
    exact transform_tree_mem_subtrees hmem
  · rw [transform_tree_valueIs]; exact hx

/-- C5, at the tree of `(x * 3) + 5`: the node `x * 3` becomes `3 * x`. -/
theorem transform_tree_star_left_witness :
    Tree.node "*".toList (.leaf "x".toList) (.leaf "3".toList) ∈
        subtrees (.node "+".toList
          (.node "*".toList (.leaf "x".toList) (.leaf "3".toList)) (.leaf "5".toList)) ∧
    (Tree.leaf "x".toList).valueIs "x".toList = true ∧
    Tree.node "*".toList (.leaf "3".toList) (.leaf "x".toList) ∈
        subtrees (transform_tree (.node "+".toList
          (.node "*".toList (.leaf "x".toList) (.leaf "3".toList)) (.leaf "5".toList))) ∧
    (Tree.leaf "3".toList).valueIs "x".toList = false :=
  ⟨by decide, by decide,
    ((transform_tree_star_left (.node "+".toList
        (.node "*".toList (.leaf "x".toList) (.leaf "3".toList)) (.leaf "5".toList))).2
      (.leaf "x".toList) (.leaf "3".toList) (by decide) (by decide)).1,
    by decide⟩

/-- C5 as stated fails at `x * x`: the transformed tree is `x * x` again, a `*`
node whose left child is `x`. -/
theorem transform_tree_star_left_counterexample :
    transform_tree (.node "*".toList (.leaf "x".toList) (.leaf "x".toList)) =
        .node "*".toList (.leaf "x".toList) (.leaf "x".toList) ∧
      hasStarLeftX (transform_tree
        (.node "*".toList (.leaf "x".toList) (.leaf "x".toList))) = true :=
  ⟨by decide, by decide⟩

theorem eq_leaf_of_xLeaves {t : Tree} (hx : t.valueIs "x".toList = true)
    (h : xLeaves t = true) : t = .leaf "x".toList := by
  cases t with
  | null => simp [Tree.valueIs] at hx
  | node v l r =>
    simp only [Tree.valueIs] at hx
    simp only [xLeaves, hx, Bool.not_true, Bool.false_or, Bool.and_eq_true] at h
    obtain ⟨⟨⟨hl, hr⟩, _⟩, _⟩ := h
    simp only [beq_iff_eq] at hx
    cases l <;> cases r <;> simp_all [Tree.isNull, Tree.leaf]

theorem xLeaves_transform_tree (t : Tree) : xLeaves (transform_tree t) = xLeaves t := by
  induction t with
  | null => rfl
  | node v l r ihl ihr =>
    simp only [transform_tree]
    split
    · simp only [xLeaves, ihl, ihr, transform_tree_isNull]
      cases l.isNull <;> cases r.isNull <;> cases xLeaves l <;> cases xLeaves r <;> simp
    · simp only [xLeaves, ihl, ihr, transform_tree_isNull]

/-- On a tree in which each node valued `x` is a leaf, transforming twice gives
the same tree as transforming once. -/
theorem transform_tree_twice_of_xLeaves (t : Tree) (h : xLeaves t = true) :
    transform_tree (transform_tree t) = transform_tree t := by
  induction t with
  | null => rfl
  | node v l r ihl ihr =>
    simp only [xLeaves, Bool.and_eq_true] at h
    obtain ⟨⟨_, hl⟩, hr⟩ := h
    have il := ihl hl
    have ir := ihr hr
    by_cases hswap : (v == "*".toList && (transform_tree l).valueIs "x".toList) = true
    · have e1 : transform_tree (.node v l r) = .node v (transform_tree r) (transform_tree l) := by
        simp only [transform_tree, hswap, if_true]
      rw [e1]
      simp only [Bool.and_eq_true] at hswap
      have hl2 : transform_tree l = .leaf "x".toList :=
        eq_leaf_of_xLeaves hswap.2 (by rw [xLeaves_transform_tree]; exact hl)
      by_cases hrx : (transform_tree r).valueIs "x".toList = true
      · have hr2 : transform_tree r = .leaf "x".toList :=
          eq_leaf_of_xLeaves hrx (by rw [xLeaves_transform_tree]; exact hr)
        rw [hl2, hr2]
        simp only [transform_tree, Tree.leaf, ite_self]
      · simp only [transform_tree, il, ir, hrx, Bool.and_false, Bool.false_eq_true, if_false]
    · have hs := Bool.eq_false_iff.mpr hswap
      have e1 : transform_tree (.node v l r) = .node v (transform_tree l) (transform_tree r) := by
        simp only [transform_tree, hs, Bool.false_eq_true, if_false]
      rw [e1]
      simp only [transform_tree, il, ir, hs, Bool.false_eq_true, if_false]

theorem xLeaves_of_wellFormed (t : Tree) (h : wellFormed t = true) : xLeaves t = true := by
  induction t with
  | null => rfl
  | node v l r ihl ihr =>
    rcases wellFormed_node h with ⟨hl, hr, _⟩ | ⟨_, hv, hl, hr⟩
    · subst hl; subst hr
      simp only [xLeaves, Tree.isNull, Bool.and_self, Bool.or_true]
    · have hno := operator_not_operand hv
      simp only [Bool.or_eq_false_iff] at hno
      simp only [xLeaves, hno.2, Bool.not_false, Bool.true_or, ihl hl, ihr hr, Bool.and_self]

theorem buildStep_xLeaves {stack stack2 : List Tree} {token : Token}
    (h : ∀ t ∈ stack, xLeaves t = true) (e : buildStep stack token = some stack2) :
    ∀ t ∈ stack2, xLeaves t = true := by
  unfold buildStep at e
  split at e
  · cases e
    intro t ht
    simp only [List.mem_cons] at ht
    rcases ht with ht | ht
    · subst ht
      simp only [Tree.leaf, xLeaves, Tree.isNull, Bool.and_self, Bool.or_true]
    · exact h t ht
  · split at e
    · rename_i hop
      have hno := operator_not_operand hop
      simp only [Bool.or_eq_false_iff] at hno
      split at e
      · rename_i r l rest
        cases e
        intro t ht
        simp only [List.mem_cons] at ht
        rcases ht with ht | ht
        · subst ht
          have hl : xLeaves l = true := h l (by simp)
          have hr : xLeaves r = true := h r (by simp)
          simp only [xLeaves, hno.2, Bool.not_false, Bool.true_or, hl, hr, Bool.and_self]
        · exact h t (by simp [ht])
      · cases e
    · cases e
      exact h

theorem buildLoop_xLeaves (ts : List Token) {stack stack2 : List Tree}
    (h : ∀ t ∈ stack, xLeaves t = true) (e : buildLoop ts stack = some stack2) :
    ∀ t ∈ stack2, xLeaves t = true := by
  induction ts generalizing stack with
  | nil =>
    simp only [buildLoop, Option.some.injEq] at e
    subst e
    exact h
  | cons token rest ih =>
    simp only [buildLoop] at e
    cases hs : buildStep stack token with
    | none => rw [hs] at e; cases e
    | some stack1 =>
      rw [hs] at e
      exact ih (buildStep_xLeaves h hs) e

/-- In every tree the builder returns, each node valued `x` is a leaf. -/
theorem build_expression_tree_xLeaves {ts : List Token} {t : Tree}
    (e : build_expression_tree ts = some t) : xLeaves t = true := by
  unfold build_expression_tree at e
  split at e
  · rename_i top rest hloop
    cases e
    exact buildLoop_xLeaves ts (by simp) hloop t (by simp)
  · cases e

/-- C6. Transforming twice gives the same tree as transforming once: for every
well-formed expression tree, for every tree `build_expression_tree` returns on
any token sequence, and more generally for every tree in which each node valued
`x` is a leaf. -/
theorem transform_tree_idempotent (t : Tree)
    (h : wellFormed t = true ∨ (∃ ts : List Token, build_expression_tree ts = some t) ∨
      xLeaves t = true) :
    transform_tree (transform_tree t) = transform_tree t := by
  rcases h with h | ⟨ts, h⟩ | h
  · exact transform_tree_twice_of_xLeaves t (xLeaves_of_wellFormed t h)
  · exact transform_tree_twice_of_xLeaves t (build_expression_tree_xLeaves h)
  · exact transform_tree_twice_of_xLeaves t h

/-- C6, at the tree the pipeline builds for `x * 3 + 5`. -/
theorem transform_tree_idempotent_witness :
    build_expression_tree ( infix_to_postfix (tokenize "x*3+5".toList)) =
      some (.node "+".toList
        (.node "*".toList (.leaf "x".toList) (.leaf "3".toList)) (.leaf "5".toList)) ∧
    wellFormed (.node "+".toList
        (.node "*".toList (.leaf "x".toList) (.leaf "3".toList)) (.leaf "5".toList)) = true ∧
    transform_tree (transform_tree (.node "+".toList
        (.node "*".toList (.leaf "x".toList) (.leaf "3".toList)) (.leaf "5".toList))) =
      .node "+".toList
        (.node "*".toList (.leaf "3".toList) (.leaf "x".toList)) (.leaf "5".toList) :=
  ⟨by decide, by decide,
    (transform_tree_idempotent (.node "+".toList
        (.node "*".toList (.leaf "x".toList) (.leaf "3".toList)) (.leaf "5".toList))
      (Or.inr (Or.inl ⟨ infix_to_postfix (tokenize "x*3+5".toList), by decide⟩))).trans
      (by decide)⟩

/-- The hypothesis on the nodes valued `x` cannot be dropped: on a node
structure in which such a node has a child, which no token sequence builds, a
`*` node over two of them is swapped again by the second pass. -/
theorem transform_tree_twice_inner_x :
    xLeaves (.node "*".toList (.leaf "x".toList)
        (.node "x".toList (.leaf "1".toList) .null)) = false ∧
    transform_tree (transform_tree (.node "*".toList (.leaf "x".toList)
        (.node "x".toList (.leaf "1".toList) .null))) ≠
      transform_tree (.node "*".toList (.leaf "x".toList)
        (.node "x".toList (.leaf "1".toList) .null)) := by
  refine ⟨by decide, ?_⟩
  decide

/-! ## Tokenizer -/

theorem flush_current_token (st : TokState) : st.flush.current_token = [] := by
  unfold TokState.flush
  split
  · rfl
  · rename_i h
    simpa using h

theorem flush_tokens_append (toks : List Token) (cur : Token) :
    (TokState.flush ⟨toks, cur⟩).tokens = toks ++ (TokState.flush ⟨[], cur⟩).tokens := by
  unfold TokState.flush
  split <;> simp

theorem tokenizeStep_append (toks : List Token) (cur : Token) (c : Char) :
    tokenizeStep ⟨toks, cur⟩ c =
      ⟨toks ++ (tokenizeStep ⟨[], cur⟩ c).tokens, (tokenizeStep ⟨[], cur⟩ c).current_token⟩ := by
  have hf := flush_tokens_append toks cur
  have hc1 := flush_current_token ⟨toks, cur⟩
  have hc2 := flush_current_token ⟨[], cur⟩
  unfold tokenizeStep
  split
  · rw [← hf, hc2, ← hc1]
  · split
    · simp
    · split
      · simp only [hf, hc1, hc2, List.append_assoc]
      · split
        · simp only [hf, hc1, hc2, List.append_assoc]
        · simp

theorem foldl_tokenizeStep_append (s : List Char) (toks : List Token) (cur : Token) :
    s.foldl tokenizeStep ⟨toks, cur⟩ =
      ⟨toks ++ (s.foldl tokenizeStep ⟨[], cur⟩).tokens,
        (s.foldl tokenizeStep ⟨[], cur⟩).current_token⟩ := by
  induction s generalizing toks cur with
  | nil => simp
  | cons c s ih =>
    simp only [List.foldl_cons]
    rw [tokenizeStep_append toks cur c, ih, ih (tokenizeStep ⟨[], cur⟩ c).tokens]
    simp only [List.append_assoc]

/-- A character on which the loop emits the pending token, then the tokens `e`,
and starts afresh, splits the input into two independent parts. -/
theorem tokenize_split (a b : List Char) (c : Char) (e : List Token)
    (h : ∀ st : TokState, tokenizeStep st c = ⟨st.flush.tokens ++ e, []⟩) :
    tokenize (a ++ [c] ++ b) = tokenize a ++ e ++ tokenize b := by
  simp only [tokenize, List.append_assoc, List.singleton_append, List.foldl_append,
    List.foldl_cons, h]
  rw [foldl_tokenizeStep_append b, flush_tokens_append]
  generalize (List.foldl tokenizeStep ⟨[], []⟩ b) = B
  cases B with
  | mk bt bc =>
    simp only [List.append_assoc]
    rw [flush_tokens_append bt bc]

theorem tokenizeStep_symbol (st : TokState) (c : Char)
    (h1 : isspace c = false) (h2 : isdigit c = false)
    (h3 : (is_operator [c] || c == '(' || c == ')') = true ∨ c = 'x') :
    tokenizeStep st c = ⟨st.flush.tokens ++ [[c]], []⟩ := by
  have hc := flush_current_token st
  by_cases h4 : (is_operator [c] || c == '(' || c == ')') = true
  · simp only [tokenizeStep, h1, h2, h4, hc, Bool.false_eq_true, if_false, if_true]
  · rcases h3 with h3 | h3
    · exact absurd h3 h4
    · subst h3
      have h5 := Bool.eq_false_iff.mpr h4
      simp only [tokenizeStep, h1, h2, h5, hc, Bool.false_eq_true, if_false, beq_self_eq_true,
        if_true]
      rfl

theorem tokenizeStep_space (st : TokState) (c : Char) (h1 : isspace c = true) :
    tokenizeStep st c = ⟨st.flush.tokens ++ [], []⟩ := by
  have hc := flush_current_token st
  simp only [tokenizeStep, h1, if_true, List.append_nil]
  rw [← hc]

theorem tokenizeStep_ignored (st : TokState) (c : Char) (h : isIgnored c = true) :
    tokenizeStep st c = st := by
  simp only [isIgnored, Bool.and_eq_true, Bool.not_eq_true'] at h
  obtain ⟨⟨⟨h1, h2⟩, h3⟩, h4⟩ := h
  simp only [tokenizeStep, h1, h2, h3, h4, Bool.false_eq_true, if_false]

theorem isIgnored_of_not_symbol {c : Char} (h1 : isspace c = false) (h2 : isdigit c = false)
    (h3 : c ∉ symbolChars) : isIgnored c = true := by
  simp only [symbolChars, List.mem_cons, List.mem_singleton, not_or, List.not_mem_nil,
    not_false_eq_true, and_true] at h3
  obtain ⟨a1, a2, a3, a4, a5, a6, a7, a8, a9⟩ := h3
  have e : ∀ d : Char, ([c] == [d]) = false ↔ c ≠ d := by
    intro d
    rw [← Bool.not_eq_true, beq_iff_eq]
    simp
  have o : is_operator [c] = false := by
    simp only [is_operator, Bool.or_eq_false_iff]
    exact ⟨⟨⟨⟨⟨(e _).2 a1, (e _).2 a2⟩, (e _).2 a3⟩, (e _).2 a4⟩, (e _).2 a5⟩, (e _).2 a6⟩
  have p1 : (c == '(') = false := by rw [← Bool.not_eq_true, beq_iff_eq]; exact a7
  have p2 : (c == ')') = false := by rw [← Bool.not_eq_true, beq_iff_eq]; exact a8
  have p3 : (c == 'x') = false := by rw [← Bool.not_eq_true, beq_iff_eq]; exact a9
  simp only [isIgnored, h1, h2, o, p1, p2, p3, Bool.or_self, Bool.not_false, Bool.and_self]

/-- C7. Each of the characters `+ - * / % ^ ( ) x` splits the input: the tokens
of `a ++ [c] ++ b` are the tokens of `a`, the one-character token `c`, and the
tokens of `b`. -/
theorem tokenize_symbol (a b : List Char) (c : Char) (hc : c ∈ symbolChars) :
    tokenize (a ++ [c] ++ b) = tokenize a ++ [[c]] ++ tokenize b := by
  apply tokenize_split
  intro st
  simp only [symbolChars, List.mem_cons, List.mem_singleton, List.not_mem_nil, or_false] at hc
  rcases hc with h | h | h | h | h | h | h | h | h <;> subst h <;>
    exact tokenizeStep_symbol st _ (by decide) (by decide) (by decide)

/-- C7, at the input `12+x*3` of the specification, split at its `+`. -/
theorem tokenize_symbol_witness :
    '+' ∈ symbolChars ∧
    tokenize "12+x*3".toList =
      ["12".toList, "+".toList, "x".toList, "*".toList, "3".toList] :=
  ⟨by decide,
    (tokenize_symbol "12".toList "x*3".toList '+' (by decide)).trans (by decide)⟩

theorem RunsOf_extend {st : TokState} {p : List Char} (q : List Char)
    (h : st.RunsOf p) (hc : st.current_token = []) : st.RunsOf (p ++ q) := by
  refine ⟨fun tok ht => ⟨(h.1 tok ht).1, ?_⟩, ?_⟩
  · obtain ⟨u, v, e⟩ := (h.1 tok ht).2
    exact ⟨u, v ++ q, by rw [← e]; simp⟩
  · rw [hc]; exact List.nil_suffix

theorem RunsOf_flush {st : TokState} {p : List Char} (h : st.RunsOf p) : st.flush.RunsOf p := by
  unfold TokState.flush
  split
  · rename_i hne
    refine ⟨?_, List.nil_suffix⟩
    intro tok ht
    simp only [List.mem_append, List.mem_singleton] at ht
    rcases ht with ht | ht
    · exact h.1 tok ht
    · subst ht
      exact ⟨hne, h.2.isInfix⟩
  · exact h

theorem RunsOf_push {st : TokState} {p : List Char} (c : Char)
    (h : st.RunsOf p) (hc : st.current_token = []) :
    TokState.RunsOf ⟨st.tokens ++ [[c]], st.current_token⟩ (p ++ [c]) := by
  have h2 := RunsOf_extend [c] h hc
  refine ⟨?_, h2.2⟩
  intro tok ht
  simp only [List.mem_append, List.mem_singleton] at ht
  rcases ht with ht | ht
  · exact h2.1 tok ht
  · subst ht
    exact ⟨by simp, (List.suffix_append p [c]).isInfix⟩

theorem RunsOf_step {st : TokState} {p : List Char} (c : Char) (h : st.RunsOf p) :
    (tokenizeStep st c).RunsOf (p ++ significant [c]) := by
  by_cases hi : isIgnored c = true
  · simp only [tokenizeStep_ignored st c hi, significant, List.filter, hi, Bool.not_true,
      List.append_nil]
    exact h
  · have hi2 := Bool.eq_false_iff.mpr hi
    have hs : significant [c] = [c] := by
      simp only [significant, List.filter, hi2, Bool.not_false]
    rw [hs]
    have hf := RunsOf_flush h
    have hfc := flush_current_token st
    unfold tokenizeStep
    split
    · exact RunsOf_extend [c] hf hfc
    · split
      · refine ⟨fun tok ht => ⟨(h.1 tok ht).1, ?_⟩, ?_⟩
        · obtain ⟨u, v, e⟩ := (h.1 tok ht).2
          exact ⟨u, v ++ [c], by rw [← e]; simp⟩
        · obtain ⟨u, e⟩ := h.2
          exact ⟨u, by rw [← e]; simp⟩
      · split
        · exact RunsOf_push c hf hfc
        · split
          · rename_i hx
            simp only [beq_iff_eq] at hx
            subst hx
            exact RunsOf_push _ hf hfc
          · rename_i n1 n2 n3 n4
            exfalso
            apply hi
            simp only [Bool.not_eq_true] at n1 n2 n3 n4
            simp only [isIgnored, n1, n2, n3, n4, Bool.not_false, Bool.and_self]

theorem RunsOf_foldl (s : List Char) {st : TokState} {p : List Char} (h : st.RunsOf p) :
    (s.foldl tokenizeStep st).RunsOf (p ++ significant s) := by
  induction s generalizing st p with
  | nil => simpa [significant] using h
  | cons c s ih =>
    have := ih (RunsOf_step c h)
    have e : significant (c :: s) = significant [c] ++ significant s := by
      simp only [significant, ← List.filter_append, List.singleton_append]
    rw [e, ← List.append_assoc]
    exact this

theorem isspace_not_digit {c : Char} (h : isspace c = true) : isdigit c = false := by
  simp only [isspace, Bool.or_eq_true, beq_iff_eq, Bool.and_eq_true, decide_eq_true_eq] at h
  rw [← Bool.not_eq_true]
  simp only [isdigit, Bool.and_eq_true, decide_eq_true_eq]
  omega

theorem isdigit_not_space {c : Char} (h : isdigit c = true) : isspace c = false := by
  rw [← Bool.not_eq_true]
  intro h2
  rw [isspace_not_digit h2] at h
  exact absurd h (by decide)

theorem noDigitAtEnd_concat (p : List Char) (c : Char) :
    noDigitAtEnd (p ++ [c]) = !isdigit c := by
  simp only [noDigitAtEnd, List.getLast?_concat]

theorem mem_flush_tokens {st : TokState} {tok : Token} (h : tok ∈ st.flush.tokens) :
    tok ∈ st.tokens ∨ (tok = st.current_token ∧ st.current_token ≠ []) := by
  unfold TokState.flush at h
  split at h
  · rename_i hne
    simp only [List.mem_append, List.mem_singleton] at h
    rcases h with h | h
    · exact Or.inl h
    · exact Or.inr ⟨h, hne⟩
  · exact Or.inl h

/-- A character that is not a digit and ends the pending token keeps the
invariant: the pending token, if any, stands right before it. -/
theorem MaximalRuns_separator {st : TokState} {p : List Char} (c : Char) (e : List Token)
    (h : st.MaximalRuns p) (hc : isdigit c = false) (he : ∀ tok ∈ e, is_number tok = false) :
    TokState.MaximalRuns ⟨st.flush.tokens ++ e, []⟩ (p ++ [c]) := by
  obtain ⟨ht, u, hu, hue⟩ := h
  refine ⟨?_, p ++ [c], by simp, by rw [noDigitAtEnd_concat, hc]; rfl⟩
  intro tok htok hn
  simp only [List.mem_append] at htok
  rcases htok with htok | htok
  · rcases mem_flush_tokens htok with h1 | ⟨h1, _⟩
    · obtain ⟨u1, c1, v1, e1, a1, a2⟩ := ht tok h1 hn
      exact ⟨u1, c1, v1 ++ [c], by rw [e1]; simp, a1, a2⟩
    · exact ⟨u, c, [], by rw [hu, h1], hue, hc⟩
  · rw [he tok htok] at hn
    exact absurd hn (by decide)

theorem MaximalRuns_step {st : TokState} {p : List Char} (c : Char) (h : st.MaximalRuns p) :
    (tokenizeStep st c).MaximalRuns (p ++ significant [c]) := by
  by_cases hi : isIgnored c = true
  · simp only [tokenizeStep_ignored st c hi, significant, List.filter, hi, Bool.not_true,
      List.append_nil]
    exact h
  · have hi2 := Bool.eq_false_iff.mpr hi
    have hs : significant [c] = [c] := by
      simp only [significant, List.filter, hi2, Bool.not_false]
    rw [hs]
    by_cases h1 : isspace c = true
    · rw [tokenizeStep_space st c h1]
      exact MaximalRuns_separator c [] h (isspace_not_digit h1) (by simp)
    · have h1f := Bool.eq_false_iff.mpr h1
      by_cases h2 : isdigit c = true
      · have e : tokenizeStep st c = ⟨st.tokens, st.current_token ++ [c]⟩ := by
          simp only [tokenizeStep, h1f, h2, Bool.false_eq_true, if_false, if_true]
        rw [e]
        obtain ⟨ht, u, hu, hue⟩ := h
        refine ⟨?_, u, by rw [hu]; simp, hue⟩
        intro tok htok hn
        obtain ⟨u1, c1, v1, e1, a1, a2⟩ := ht tok htok hn
        exact ⟨u1, c1, v1 ++ [c], by rw [e1]; simp, a1, a2⟩
      · have h2f := Bool.eq_false_iff.mpr h2
        have h3 : (is_operator [c] || c == '(' || c == ')') = true ∨ c = 'x' := by
          by_cases h4 : (is_operator [c] || c == '(' || c == ')') = true
          · exact Or.inl h4
          · have h4f := Bool.eq_false_iff.mpr h4
            right
            simp only [isIgnored, h1f, h2f, h4f, Bool.not_false, Bool.true_and,
              Bool.not_eq_false', beq_iff_eq] at hi2
            exact hi2
        rw [tokenizeStep_symbol st c h1f h2f h3]
        refine MaximalRuns_separator c [[c]] h h2f ?_
        intro tok htok
        simp only [List.mem_singleton] at htok
        subst htok
        simp only [is_number, List.all_cons, h2f, Bool.false_and]

theorem MaximalRuns_foldl (s : List Char) {st : TokState} {p : List Char}
    (h : st.MaximalRuns p) :
    (s.foldl tokenizeStep st).MaximalRuns (p ++ significant s) := by
  induction s generalizing st p with
  | nil => simpa [significant] using h
  | cons c s ih =>
    have := ih (MaximalRuns_step c h)
    have e : significant (c :: s) = significant [c] ++ significant s := by
      simp only [significant, ← List.filter_append, List.singleton_append]
    rw [e, ← List.append_assoc]
    exact this

/-- On digits and ignored characters the loop only appends the digits to the
token being accumulated. -/
theorem foldl_tokenizeStep_digits (s : List Char) (st : TokState)
    (h : ∀ c ∈ s, isdigit c = true ∨ isIgnored c = true) :
    s.foldl tokenizeStep st = ⟨st.tokens, st.current_token ++ s.filter isdigit⟩ := by
  induction s generalizing st with
  | nil => simp
  | cons c s ih =>
    have hs : ∀ d ∈ s, isdigit d = true ∨ isIgnored d = true :=
      fun d hd => h d (List.mem_cons_of_mem _ hd)
    rw [List.foldl_cons, ih _ hs]
    rcases h c (List.mem_cons_self _ _) with hc | hc
    · have hsp := isdigit_not_space hc
      have e : tokenizeStep st c = ⟨st.tokens, st.current_token ++ [c]⟩ := by
        simp only [tokenizeStep, hsp, hc, Bool.false_eq_true, if_false, if_true]
      simp only [e, List.filter, hc, List.append_assoc, List.singleton_append]
    · have hd : isdigit c = false := by
        simp only [isIgnored, Bool.and_eq_true, Bool.not_eq_true'] at hc
        exact hc.1.1.2
      simp only [tokenizeStep_ignored st c hc, List.filter, hd]

theorem foldl_tokenizeStep_significant (s : List Char) (st : TokState) :
    s.foldl tokenizeStep st = (significant s).foldl tokenizeStep st := by
  induction s generalizing st with
  | nil => rfl
  | cons c s ih =>
    by_cases hi : isIgnored c = true
    · have e : significant (c :: s) = significant s := by
        simp only [significant, List.filter, hi, Bool.not_true]
      rw [e, List.foldl_cons, tokenizeStep_ignored st c hi, ih]
    · have hi2 := Bool.eq_false_iff.mpr hi
      have e : significant (c :: s) = c :: significant s := by
        simp only [significant, List.filter, hi2, Bool.not_false]
      rw [e, List.foldl_cons, List.foldl_cons, ih]

/-- C8, as the code has it. Digits accumulate into one numeric token until
whitespace, an operator, a parenthesis, `x` or the end of the input; an ignored
character does not end the accumulation. For every input `s`: every numeric
token of `tokenize s` is a non-empty run of digits that is contiguous and
maximal (not preceded and not followed by a digit) in `s` with its ignored
characters removed; if `s` holds only digits and ignored characters, and some
digit, its tokens are the one token made of all its digits; and the tokens of
`s` are those of `s` with its ignored characters removed. -/
theorem tokenize_numeric_run (s : List Char) :
    (∀ tok ∈ tokenize s, is_number tok = true →
        tok ≠ [] ∧ (∀ c ∈ tok, isdigit c = true) ∧ tok <:+: significant s ∧
        ∃ u v : List Char, significant s = u ++ tok ++ v ∧
          noDigitAtEnd u = true ∧ noDigitAtStart v = true) ∧
      ((∀ c ∈ s, isdigit c = true ∨ isIgnored c = true) → s.filter isdigit ≠ [] →
        tokenize s = [s.filter isdigit]) ∧
      tokenize s = tokenize (significant s) := by
  refine ⟨?_, ?_, ?_⟩
  · intro tok h hn
    have h0 : TokState.RunsOf ⟨[], []⟩ [] := ⟨by simp, List.nil_suffix⟩
    have h1 := RunsOf_flush (RunsOf_foldl s h0)
    simp only [List.nil_append] at h1
    have m0 : TokState.MaximalRuns ⟨[], []⟩ [] := ⟨by simp, [], rfl, rfl⟩
    have m1 := MaximalRuns_foldl s m0
    simp only [List.nil_append] at m1
    refine ⟨(h1.1 tok h).1, by simpa [is_number] using hn, (h1.1 tok h).2, ?_⟩
    obtain ⟨mt, u, hu, hue⟩ := m1
    rcases mem_flush_tokens h with h2 | ⟨h2, _⟩
    · obtain ⟨u1, c1, v1, e1, a1, a2⟩ := mt tok h2 hn
      exact ⟨u1, c1 :: v1, e1, a1, by simp only [noDigitAtStart, List.head?_cons, a2]; rfl⟩
    · exact ⟨u, [], by rw [hu, h2]; simp, hue, rfl⟩
  · intro hall hne
    simp only [tokenize, foldl_tokenizeStep_digits s _ hall, List.nil_append, TokState.flush,
      hne, ne_eq, not_false_eq_true, if_true]
  · simp only [tokenize, foldl_tokenizeStep_significant s]

/-- C8, at the input `1a2`: its one token `12` is the whole of `12`, the input
without the ignored `a`. -/
theorem tokenize_numeric_run_witness :
    "12".toList ∈ tokenize "1a2".toList ∧ is_number "12".toList = true ∧
      significant "1a2".toList = "12".toList ∧
      "12".toList <:+: significant "1a2".toList ∧
      tokenize "1a2".toList = ["12".toList] :=
  ⟨by decide, by decide, by decide,
    ((tokenize_numeric_run "1a2".toList).1 "12".toList (by decide) (by decide)).2.2.1,
    (tokenize_numeric_run "1a2".toList).2.1 (by decide) (by decide)⟩

/-- C8 as stated fails at the input `1a2`: the digits `1` and `2`, separated by
the letter, end in the one token `12`, which is not a contiguous run of `1a2`. -/
theorem tokenize_numeric_run_counterexample :
    tokenize "1a2".toList = ["12".toList] ∧ is_number "12".toList = true ∧
      ¬ ("12".toList <:+: "1a2".toList) := by
  refine ⟨by decide, by decide, ?_⟩
  decide

/-- C9. A character that is not whitespace, not a digit, and none of
`+ - * / % ^ ( ) x` is ignored: the tokens of `a ++ [c] ++ b` are those of
`a ++ b`. -/
theorem tokenize_ignored (a b : List Char) (c : Char)
    (h1 : isspace c = false) (h2 : isdigit c = false) (h3 : c ∉ symbolChars) :
    tokenize (a ++ [c] ++ b) = tokenize (a ++ b) := by
  simp only [tokenize, List.append_assoc, List.singleton_append, List.foldl_append,
    List.foldl_cons, tokenizeStep_ignored _ c (isIgnored_of_not_symbol h1 h2 h3)]

/-- C9, at the input `1a2`, whose tokens are those of `12`. -/
theorem tokenize_ignored_witness :
    isspace 'a' = false ∧ isdigit 'a' = false ∧ 'a' ∉ symbolChars ∧
      tokenize "1a2".toList = tokenize "12".toList :=
  ⟨by decide, by decide, by decide,
    tokenize_ignored "1".toList "2".toList 'a' (by decide) (by decide) (by decide)⟩

theorem NoSpace_flush {st : TokState} (h : st.NoSpace) : st.flush.NoSpace := by
  unfold TokState.flush
  split
  · refine ⟨?_, by simp⟩
    intro tok ht
    simp only [List.mem_append, List.mem_singleton] at ht
    rcases ht with ht | ht
    · exact h.1 tok ht
    · subst ht
      exact h.2
  · exact h

theorem NoSpace_push {st : TokState} (tok : Token) (h : st.NoSpace)
    (ht : ∀ c ∈ tok, isspace c = false) :
    TokState.NoSpace ⟨st.tokens ++ [tok], st.current_token⟩ := by
  refine ⟨?_, h.2⟩
  intro t hmem
  simp only [List.mem_append, List.mem_singleton] at hmem
  rcases hmem with hmem | hmem
  · exact h.1 t hmem
  · subst hmem
    exact ht

theorem NoSpace_step {st : TokState} (c : Char) (h : st.NoSpace) :
    (tokenizeStep st c).NoSpace := by
  have hf := NoSpace_flush h
  unfold tokenizeStep
  split
  · exact hf
  · rename_i hsp
    simp only [Bool.not_eq_true] at hsp
    split
    · refine ⟨h.1, ?_⟩
      intro d hd
      simp only [List.mem_append, List.mem_singleton] at hd
      rcases hd with hd | hd
      · exact h.2 d hd
      · subst hd
        exact hsp
    · split
      · exact NoSpace_push [c] hf (by simpa using hsp)
      · split
        · exact NoSpace_push "x".toList hf (by decide)
        · exact h

theorem NoSpace_foldl (s : List Char) {st : TokState} (h : st.NoSpace) :
    (s.foldl tokenizeStep st).NoSpace := by
  induction s generalizing st with
  | nil => exact h
  | cons c s ih => exact ih (NoSpace_step c h)

/-- C10. A whitespace character separates tokens and is not emitted: the tokens
of `a ++ [w] ++ b` are the tokens of `a` followed by the tokens of `b`, and no
token of any result of `tokenize` contains a whitespace character. -/
theorem tokenize_whitespace (a b : List Char) (w : Char) (hw : isspace w = true) :
    tokenize (a ++ [w] ++ b) = tokenize a ++ tokenize b ∧
      ∀ (s : List Char) (tok : Token), tok ∈ tokenize s → ∀ c ∈ tok, isspace c = false := by
  constructor
  · have := tokenize_split a b w [] (fun st => tokenizeStep_space st w hw)
    simpa using this
  · intro s tok ht
    have h0 : TokState.NoSpace ⟨[], []⟩ := ⟨by simp, by simp⟩
    exact (NoSpace_flush (NoSpace_foldl s h0)).1 tok ht

/-- C10, at the input `12 3` with a space, and at `1` tab `x`. -/
theorem tokenize_whitespace_witness :
    isspace ' ' = true ∧
    tokenize "12 3".toList = ["12".toList, "3".toList] ∧
    tokenize "1\tx".toList = ["1".toList, "x".toList] :=
  ⟨by decide,
    (tokenize_whitespace "12".toList "3".toList ' ' (by decide)).1.trans (by decide),
    (tokenize_whitespace "1".toList "x".toList '\t' (by decide)).1.trans (by decide)⟩

/-! ## Evaluator -/

/-- C11. The tree built from the postfix `1 2 + 3 *` is `(1+2)*3`, and it
evaluates to 9 for every value of `x`. -/
theorem evaluate_built_tree (pow : Int → Int → Outcome) (x : Int) :
    build_expression_tree ["1".toList, "2".toList, "+".toList, "3".toList, "*".toList] =
        some (.node "*".toList
          (.node "+".toList (.leaf "1".toList) (.leaf "2".toList)) (.leaf "3".toList)) ∧
      (build_expression_tree
          ["1".toList, "2".toList, "+".toList, "3".toList, "*".toList]).map
        (fun root => evaluate pow root x) = some (.value 9) := by
  have hb : build_expression_tree
      ["1".toList, "2".toList, "+".toList, "3".toList, "*".toList] =
        some (.node "*".toList
          (.node "+".toList (.leaf "1".toList) (.leaf "2".toList)) (.leaf "3".toList)) := by
    decide
  refine ⟨hb, ?_⟩
  rw [hb]
  rfl

theorem evaluate_slash (pow : Int → Int → Outcome) (l r : Tree) (x : Int) :
    evaluate pow (.node "/".toList l r) x =
      (evaluate pow l x).bind fun left_val =>
        (evaluate pow r x).bind fun right_val =>
          if right_val = 0 ∨ (left_val = INT_MIN ∧ right_val = -1) then .fault .arithmetic
          else .value (Int.tdiv left_val right_val) := by
  have h1 : is_number "/".toList = false := by decide
  have h2 : ("/".toList == "x".toList) = false := by decide
  have h3 : ("/".toList == "+".toList) = false := by decide
  have h4 : ("/".toList == "-".toList) = false := by decide
  have h5 : ("/".toList == "*".toList) = false := by decide
  simp only [evaluate, h1, h2, h3, h4, h5, Bool.false_eq_true, if_false, beq_self_eq_true,
    if_true]

theorem evaluate_percent (pow : Int → Int → Outcome) (l r : Tree) (x : Int) :
    evaluate pow (.node "%".toList l r) x =
      (evaluate pow l x).bind fun left_val =>
        (evaluate pow r x).bind fun right_val =>
          if right_val = 0 ∨ (left_val = INT_MIN ∧ right_val = -1) then .fault .arithmetic
          else .value (Int.tmod left_val right_val) := by
  have h1 : is_number "%".toList = false := by decide
  have h2 : ("%".toList == "x".toList) = false := by decide
  have h3 : ("%".toList == "+".toList) = false := by decide
  have h4 : ("%".toList == "-".toList) = false := by decide
  have h5 : ("%".toList == "*".toList) = false := by decide
  have h6 : ("%".toList == "/".toList) = false := by decide
  simp only [evaluate, h1, h2, h3, h4, h5, h6, Bool.false_eq_true, if_false, beq_self_eq_true,
    if_true]

theorem tmod_abs_lt (a b : Int) (hb : b ≠ 0) : |Int.tmod a b| < |b| := by
  rcases a with m | m <;> rcases b with n | n
  · have hn : 0 < n := Nat.pos_of_ne_zero (by rintro rfl; exact hb rfl)
    have h := Nat.mod_lt m hn
    have e : Int.tmod (Int.ofNat m) (Int.ofNat n) = ((m % n : Nat) : Int) := rfl
    rw [e, Int.ofNat_eq_coe, Nat.abs_cast, Nat.abs_cast]
    exact_mod_cast h
  · have h := Nat.mod_lt m (Nat.succ_pos n)
    have e : Int.tmod (Int.ofNat m) (Int.negSucc n) = ((m % (n+1) : Nat) : Int) := rfl
    rw [e, Int.negSucc_eq, abs_neg, Nat.abs_cast]
    have : |(n : Int) + 1| = ((n + 1 : Nat) : Int) := by
      rw [abs_of_nonneg (by omega)]; simp
    rw [this]
    exact_mod_cast h
  · have hn : 0 < n := Nat.pos_of_ne_zero (by rintro rfl; exact hb rfl)
    have h := Nat.mod_lt (m + 1) hn
    have e : Int.tmod (Int.negSucc m) (Int.ofNat n) = -((((m + 1) % n : Nat)) : Int) := rfl
    rw [e, Int.ofNat_eq_coe, abs_neg, Nat.abs_cast, Nat.abs_cast]
    exact_mod_cast h
  · have h := Nat.mod_lt (m + 1) (Nat.succ_pos n)
    have e : Int.tmod (Int.negSucc m) (Int.negSucc n) = -((((m + 1) % (n + 1) : Nat)) : Int) := rfl
    rw [e, Int.negSucc_eq, abs_neg, abs_neg, Nat.abs_cast]
    have : |(n : Int) + 1| = ((n + 1 : Nat) : Int) := by
      rw [abs_of_nonneg (by omega)]; simp
    rw [this]
    exact_mod_cast h

theorem tmod_nonpos (a b : Int) (ha : a ≤ 0) : Int.tmod a b ≤ 0 := by
  rcases a with m | m
  · have hm : m = 0 := by
      have : (m : Int) ≤ 0 := ha
      omega
    subst hm
    simp
  · rcases b with n | n
    · have e : Int.tmod (Int.negSucc m) (Int.ofNat n) = -((((m + 1) % n : Nat)) : Int) := rfl
      rw [e]; omega
    · have e : Int.tmod (Int.negSucc m) (Int.negSucc n) = -((((m + 1) % (n + 1) : Nat)) : Int) := rfl
      rw [e]; omega

/-- C12. When the left child evaluates to `a` and the right child to a non-zero
`b` (the pair `INT_MIN`, `-1` excluded), the `/` node evaluates to the quotient
truncated toward zero and the `%` node to the matching remainder: quotient times
divisor plus remainder is the dividend, the remainder is smaller than the divisor
in absolute value and has the sign of the dividend. -/
theorem evaluate_div_mod (pow : Int → Int → Outcome) (l r : Tree) (x a b : Int)
    (hl : evaluate pow l x = .value a) (hr : evaluate pow r x = .value b)
    (hb : b ≠ 0) (hmin : ¬ (a = INT_MIN ∧ b = -1)) :
    evaluate pow (.node "/".toList l r) x = .value (Int.tdiv a b) ∧
      evaluate pow (.node "%".toList l r) x = .value (Int.tmod a b) ∧
      Int.tdiv a b * b + Int.tmod a b = a ∧
      |Int.tmod a b| < |b| ∧ (0 ≤ a → 0 ≤ Int.tmod a b) ∧ (a ≤ 0 → Int.tmod a b ≤ 0) := by
  have hc : ¬ (b = 0 ∨ (a = INT_MIN ∧ b = -1)) := by
    rintro (h | h)
    · exact hb h
    · exact hmin h
  refine ⟨?_, ?_, Int.tdiv_add_tmod' a b, tmod_abs_lt a b hb, Int.tmod_nonneg b,
    tmod_nonpos a b⟩
  · rw [evaluate_slash, hl, hr]
    simp only [Outcome.bind, hc, if_false]
  · rw [evaluate_percent, hl, hr]
    simp only [Outcome.bind, hc, if_false]

/-- C12, on the expressions of the specification: `10%3` is 1, and with
`x = -7`, `x/2` is -3 and `x%2` is -1. -/
theorem evaluate_div_mod_witness :
    evaluate_expression pow_to_int "10%3".toList 0 = some (.value 1) ∧
    evaluate_expression pow_to_int "x/2".toList (-7) = some (.value (-3)) ∧
    evaluate_expression pow_to_int "x%2".toList (-7) = some (.value (-1)) ∧
    evaluate pow_to_int (.node "/".toList (.leaf "x".toList) (.leaf "2".toList)) (-7) =
      .value (-3) ∧
    evaluate pow_to_int (.node "%".toList (.leaf "x".toList) (.leaf "2".toList)) (-7) =
      .value (-1) :=
  ⟨by decide, by decide, by decide,
    (evaluate_div_mod pow_to_int (.leaf "x".toList) (.leaf "2".toList) (-7) (-7) 2
      (by decide) (by decide) (by decide) (by decide)).1.trans (by decide),
    (evaluate_div_mod pow_to_int (.leaf "x".toList) (.leaf "2".toList) (-7) (-7) 2
      (by decide) (by decide) (by decide) (by decide)).2.1.trans (by decide)⟩

/-- C13. The pipeline on `2^3` builds the node `^` over `2` and `3` and
evaluates it, for every `x`, to the result of `std::pow` on 2 and 3 converted to
`int`; with real-valued exponentiation truncated to an integer that is 8. -/
theorem evaluate_power (x : Int) :
    build_expression_tree ( infix_to_postfix (tokenize "2^3".toList)) =
        some (.node "^".toList (.leaf "2".toList) (.leaf "3".toList)) ∧
      (∀ pow : Int → Int → Outcome,
        evaluate_expression pow "2^3".toList x = some (pow 2 3)) ∧
      evaluate_expression pow_to_int "2^3".toList x = some (.value 8) := by
  have hb : build_expression_tree ( infix_to_postfix (tokenize "2^3".toList)) =
      some (.node "^".toList (.leaf "2".toList) (.leaf "3".toList)) := by decide
  refine ⟨hb, ?_, ?_⟩
  · intro pow
    simp only [evaluate_expression, hb, Option.map_some']
    rfl
  · simp only [evaluate_expression, hb, Option.map_some']
    rfl

theorem evaluate_unknown (pow : Int → Int → Outcome) (v : Token) (l r : Tree) (x : Int)
    (hn : is_number v = false) (hx : (v == "x".toList) = false) (ho : is_operator v = false) :
    evaluate pow (.node v l r) x =
      (evaluate pow l x).bind fun _ => (evaluate pow r x).bind fun _ => .value 0 := by
  simp only [is_operator, Bool.or_eq_false_iff] at ho
  obtain ⟨⟨⟨⟨⟨h1, h2⟩, h3⟩, h4⟩, h5⟩, h6⟩ := ho
  simp only [evaluate, hn, hx, h1, h2, h3, h4, h5, h6, Bool.false_eq_true, if_false]

/-- C14, as the code has it. At a node whose value is not a number, not `x` and
not an operator, both children are evaluated first: the node yields 0 when both
children evaluate without a fault, and the fault of the first faulting child
otherwise. -/
theorem evaluate_unknown_operator (pow : Int → Int → Outcome) (v : Token) (l r : Tree)
    (x : Int) (hn : is_number v = false) (hx : v ≠ "x".toList)
    (ho : is_operator v = false) :
    (evaluate pow (.node v l r) x =
        (evaluate pow l x).bind fun _ => (evaluate pow r x).bind fun _ => .value 0) ∧
      (∀ a b : Int, evaluate pow l x = .value a → evaluate pow r x = .value b →
        evaluate pow (.node v l r) x = .value 0) ∧
      (∀ f : Fault, evaluate pow l x = .fault f → evaluate pow (.node v l r) x = .fault f) ∧
      (∀ (a : Int) (f : Fault), evaluate pow l x = .value a → evaluate pow r x = .fault f →
        evaluate pow (.node v l r) x = .fault f) := by
  have hx2 : (v == "x".toList) = false := by
    rw [← Bool.not_eq_true, beq_iff_eq]; exact hx
  have e := evaluate_unknown pow v l r x hn hx2 ho
  refine ⟨e, ?_, ?_, ?_⟩
  · intro a b ha hb
    rw [e, ha, hb]; rfl
  · intro f hf
    rw [e, hf]; rfl
  · intro a f ha hf
    rw [e, ha, hf]; rfl

/-- C14, at a node `?` over the leaves `4` and `x`: the value is 0. -/
theorem evaluate_unknown_operator_witness :
    is_number "?".toList = false ∧ "?".toList ≠ "x".toList ∧ is_operator "?".toList = false ∧
      evaluate pow_to_int (.node "?".toList (.leaf "4".toList) (.leaf "x".toList)) 5 =
        .value 0 :=
  ⟨by decide, by decide, by decide,
    (evaluate_unknown_operator pow_to_int "?".toList (.leaf "4".toList) (.leaf "x".toList) 5
      (by decide) (by decide) (by decide)).2.1 4 5 (by decide) (by decide)⟩

/-- C14 as stated fails when a child faults: the node `?` over `1/0` and `1`
does not yield 0, the division by zero of its left child is the outcome. -/
theorem evaluate_unknown_operator_counterexample :
    is_number "?".toList = false ∧ "?".toList ≠ "x".toList ∧ is_operator "?".toList = false ∧
      evaluate pow_to_int
          (.node "?".toList (.node "/".toList (.leaf "1".toList) (.leaf "0".toList))
            (.leaf "1".toList)) 0 = .fault .arithmetic ∧
      evaluate pow_to_int
          (.node "?".toList (.node "/".toList (.leaf "1".toList) (.leaf "0".toList))
            (.leaf "1".toList)) 0 ≠ .value 0 :=
  ⟨by decide, by decide, by decide, by decide, by decide⟩

/-- C16. The transformed tree has the root value of `t`, the same node values
with the same multiplicities (so the same number of nodes), and is `t` up to
exchanging the two children of `*` nodes. -/
theorem transform_tree_structure (t : Tree) :
    (transform_tree t).rootValue = t.rootValue ∧
      (nodeValues (transform_tree t)).Perm (nodeValues t) ∧
      (nodeValues (transform_tree t)).length = (nodeValues t).length ∧
      starSwapEq t (transform_tree t) = true := by
  have hperm : (nodeValues (transform_tree t)).Perm (nodeValues t) := by
    induction t with
    | null => exact List.Perm.refl _
    | node v l r ihl ihr =>
      simp only [transform_tree]
      split
      · simp only [nodeValues]
        exact List.Perm.cons v (List.perm_append_comm.trans (List.Perm.append ihl ihr))
      · simp only [nodeValues]
        exact List.Perm.cons v (List.Perm.append ihl ihr)
  refine ⟨?_, hperm, hperm.length_eq, ?_⟩
  · cases t with
    | null => rfl
    | node v l r =>
      simp only [transform_tree]
      split <;> rfl
  · clear hperm
    induction t with
    | null => rfl
    | node v l r ihl ihr =>
      simp only [transform_tree]
      split
      · rename_i hswap
        simp only [Bool.and_eq_true] at hswap
        simp only [starSwapEq, ihl, ihr, hswap.1, beq_self_eq_true, Bool.and_self,
          Bool.or_true, Bool.true_and]
      · simp only [starSwapEq, ihl, ihr, beq_self_eq_true, Bool.and_self, Bool.true_or,
          Bool.true_and]

/-! ## Converter: what each step does to the output and the stack -/

theorem popUntilParen_shape (out stack : List Token) :
    ∃ a b : List Token, "(".toList ∉ a ∧ popUntilParen out stack = ⟨out ++ a, b⟩ ∧
      stack = a ++ b ∧ (b = [] ∨ ∃ b2, b = "(".toList :: b2) := by
  induction stack generalizing out with
  | nil => exact ⟨[], [], by simp, by simp [popUntilParen], rfl, Or.inl rfl⟩
  | cons top rest ih =>
    by_cases h : top = "(".toList
    · refine ⟨[], top :: rest, by simp, ?_, rfl, Or.inr ⟨rest, by rw [h]⟩⟩
      simp only [popUntilParen, h, ne_eq, not_true_eq_false, if_false, List.append_nil]
    · obtain ⟨a, b, ha, e, hs, hb⟩ := ih (out ++ [top])
      refine ⟨top :: a, b, ?_, ?_, by rw [hs]; rfl, hb⟩
      · simp only [List.mem_cons, not_or]
        exact ⟨fun h2 => h h2.symm, ha⟩
      · simp only [popUntilParen, h, ne_eq, not_false_eq_true, if_true, e, List.append_assoc,
          List.singleton_append]

theorem popWhilePriority_shape (token : Token) (hp : 0 < get_priority token)
    (out stack : List Token) :
    ∃ a b : List Token, "(".toList ∉ a ∧ popWhilePriority token out stack = ⟨out ++ a, b⟩ ∧
      stack = a ++ b := by
  induction stack generalizing out with
  | nil => exact ⟨[], [], by simp, by simp [popWhilePriority], rfl⟩
  | cons top rest ih =>
    by_cases h : get_priority top ≥ get_priority token
    · obtain ⟨a, b, ha, e, hs⟩ := ih (out ++ [top])
      refine ⟨top :: a, b, ?_, ?_, by rw [hs]; rfl⟩
      · simp only [List.mem_cons, not_or]
        refine ⟨fun h2 => ?_, ha⟩
        rw [← h2] at h
        have h0 : get_priority "(".toList = 0 := by decide
        omega
      · simp only [popWhilePriority, h, if_true, e, List.append_assoc, List.singleton_append]
    · refine ⟨[], top :: rest, by simp, ?_, rfl⟩
      simp only [popWhilePriority, h, if_false, List.append_nil]

/-- The five cases of a step of the converter. -/
theorem infixStep_shape (st : PostfixState) (token : Token) :
    (isOperand token = true ∧
        infixStep st token = ⟨st.postfix_tokens ++ [token], st.operator_stack⟩) ∨
    (isOperand token = false ∧ token = "(".toList ∧
        infixStep st token = ⟨st.postfix_tokens, token :: st.operator_stack⟩) ∨
    (isOperand token = false ∧ token = ")".toList ∧ ∃ a b : List Token, "(".toList ∉ a ∧
        infixStep st token = ⟨st.postfix_tokens ++ a, b⟩ ∧
        ((st.operator_stack = a ∧ b = []) ∨ st.operator_stack = a ++ "(".toList :: b)) ∨
    (isOperand token = false ∧ is_operator token = true ∧ ∃ a b : List Token, "(".toList ∉ a ∧
        infixStep st token = ⟨st.postfix_tokens ++ a, token :: b⟩ ∧
        st.operator_stack = a ++ b) ∨
    (isOperand token = false ∧ isParen token = false ∧ is_operator token = false ∧
        infixStep st token = st) := by
  by_cases h1 : (is_number token || token == "x".toList) = true
  · exact Or.inl ⟨h1, infixStep_operand st h1⟩
  · have h1f := Bool.eq_false_iff.mpr h1
    by_cases h2 : (token == "(".toList) = true
    · refine Or.inr (Or.inl ⟨h1f, by simpa using h2, ?_⟩)
      simp only [infixStep, h1f, h2, Bool.false_eq_true, if_false, if_true]
    · have h2f := Bool.eq_false_iff.mpr h2
      by_cases h3 : (token == ")".toList) = true
      · refine Or.inr (Or.inr (Or.inl ⟨h1f, by simpa using h3, ?_⟩))
        obtain ⟨a, b, ha, e, hs, hb⟩ := popUntilParen_shape st.postfix_tokens st.operator_stack
        rcases hb with hb | ⟨b2, hb⟩
        · subst hb
          refine ⟨a, [], ha, ?_, Or.inl ⟨by simpa using hs, rfl⟩⟩
          simp only [infixStep, h1f, h2f, h3, e, Bool.false_eq_true, if_false, if_true]
        · subst hb
          refine ⟨a, b2, ha, ?_, Or.inr hs⟩
          simp only [infixStep, h1f, h2f, h3, e, Bool.false_eq_true, if_false, if_true,
            beq_self_eq_true]
      · have h3f := Bool.eq_false_iff.mpr h3
        by_cases h4 : is_operator token = true
        · refine Or.inr (Or.inr (Or.inr (Or.inl ⟨h1f, h4, ?_⟩)))
          obtain ⟨a, b, ha, e, hs⟩ := popWhilePriority_shape token (operator_priority_pos h4)
            st.postfix_tokens st.operator_stack
          refine ⟨a, b, ha, ?_, hs⟩
          simp only [infixStep, h1f, h2f, h3f, h4, e, Bool.false_eq_true, if_false, if_true]
        · have h4f := Bool.eq_false_iff.mpr h4
          refine Or.inr (Or.inr (Or.inr (Or.inr ⟨h1f, ?_, h4f, ?_⟩)))
          · simp only [isParen, h2f, h3f, Bool.or_self]
          · simp only [infixStep, h1f, h2f, h3f, h4f, Bool.false_eq_true, if_false]

theorem infixStep_no_close (st : PostfixState) (token : Token)
    (h : ")".toList ∉ st.postfix_tokens ++ st.operator_stack) :
    ")".toList ∉ (infixStep st token).postfix_tokens ++ (infixStep st token).operator_stack := by
  simp only [List.mem_append, not_or] at h ⊢
  obtain ⟨ho, hs⟩ := h
  rcases infixStep_shape st token with ⟨hop, e⟩ | ⟨_, ht, e⟩ | ⟨_, _, a, b, _, e, hab⟩ |
    ⟨_, hop, a, b, _, e, hab⟩ | ⟨_, _, _, e⟩
  · rw [e]
    refine ⟨?_, hs⟩
    simp only [List.mem_append, List.mem_singleton, not_or]
    refine ⟨ho, fun h2 => ?_⟩
    rw [← h2] at hop
    exact absurd hop (by decide)
  · rw [e, ht]
    refine ⟨ho, ?_⟩
    simp only [List.mem_cons, not_or]
    exact ⟨by decide, hs⟩
  · rw [e]
    rcases hab with ⟨h1, h2⟩ | h1
    · rw [h1] at hs
      subst h2
      simp only [List.mem_append, not_or]
      exact ⟨⟨ho, hs⟩, by simp⟩
    · rw [h1] at hs
      simp only [List.mem_append, List.mem_cons, not_or] at hs ⊢
      exact ⟨⟨ho, hs.1⟩, hs.2.2⟩
  · rw [e]
    rw [hab] at hs
    simp only [List.mem_append, List.mem_cons, not_or] at hs ⊢
    refine ⟨⟨ho, hs.1⟩, fun h2 => ?_, hs.2⟩
    rw [← h2] at hop
    exact absurd hop (by decide)
  · rw [e]
    exact ⟨ho, hs⟩

theorem foldl_infixStep_no_close (ts : List Token) (st : PostfixState)
    (h : ")".toList ∉ st.postfix_tokens ++ st.operator_stack) :
    ")".toList ∉ (ts.foldl infixStep st).postfix_tokens ++
      (ts.foldl infixStep st).operator_stack := by
  induction ts generalizing st with
  | nil => exact h
  | cons t ts ih => exact ih _ (infixStep_no_close st t h)

/-- C17. For every token sequence, balanced or not, the output of
`infix_to_postfix` contains no `)` token. -/
theorem infix_to_postfix_no_close (ts : List Token) :
    ")".toList ∉ infix_to_postfix ts := by
  have h := foldl_infixStep_no_close ts ⟨[], []⟩ (by simp)
  simpa [ infix_to_postfix, popAll_eq] using h

theorem infixStep_filter (p : Token → Bool) (hp : ∀ t, p t = true → isOperand t = true)
    (st : PostfixState) (token : Token) (hs : ∀ t ∈ st.operator_stack, p t = false) :
    (infixStep st token).postfix_tokens.filter p =
        st.postfix_tokens.filter p ++ [token].filter p ∧
      ∀ t ∈ (infixStep st token).operator_stack, p t = false := by
  have hnot : isOperand token = false → p token = false := by
    intro h
    rw [← Bool.not_eq_true]
    intro h2
    rw [hp token h2] at h
    exact absurd h (by decide)
  have hfil : ∀ a : List Token, (∀ t ∈ a, p t = false) → a.filter p = [] := by
    intro a ha
    rw [List.filter_eq_nil_iff]
    intro t ht
    rw [ha t ht]
    decide
  rcases infixStep_shape st token with ⟨_, e⟩ | ⟨hop, _, e⟩ | ⟨hop, _, a, b, _, e, hab⟩ |
    ⟨hop, _, a, b, _, e, hab⟩ | ⟨hop, _, _, e⟩
  · rw [e]
    exact ⟨List.filter_append _ _, hs⟩
  · rw [e]
    refine ⟨?_, ?_⟩
    · simp only [List.filter, hnot hop, List.append_nil]
    · intro t ht
      simp only [List.mem_cons] at ht
      rcases ht with ht | ht
      · rw [ht]; exact hnot hop
      · exact hs t ht
  · rw [e]
    have ha : ∀ t ∈ a, p t = false := by
      intro t ht
      apply hs
      rcases hab with ⟨h1, _⟩ | h1 <;> rw [h1]
      · exact ht
      · exact List.mem_append_left _ ht
    refine ⟨?_, ?_⟩
    · simp only [List.filter_append, hfil a ha, List.filter, hnot hop, List.append_nil]
    · intro t ht
      rcases hab with ⟨_, h2⟩ | h1
      · rw [h2] at ht; simp at ht
      · apply hs
        rw [h1]
        exact List.mem_append_right _ (List.mem_cons_of_mem _ ht)
  · rw [e]
    have ha : ∀ t ∈ a, p t = false := by
      intro t ht
      apply hs
      rw [hab]
      exact List.mem_append_left _ ht
    refine ⟨?_, ?_⟩
    · simp only [List.filter_append, hfil a ha, List.filter, hnot hop, List.append_nil]
    · intro t ht
      simp only [List.mem_cons] at ht
      rcases ht with ht | ht
      · rw [ht]; exact hnot hop
      · apply hs
        rw [hab]
        exact List.mem_append_right _ ht
  · rw [e]
    refine ⟨?_, hs⟩
    simp only [List.filter, hnot hop, List.append_nil]

theorem foldl_infixStep_filter (p : Token → Bool) (hp : ∀ t, p t = true → isOperand t = true)
    (ts : List Token) (st : PostfixState) (hs : ∀ t ∈ st.operator_stack, p t = false) :
    (ts.foldl infixStep st).postfix_tokens.filter p =
        st.postfix_tokens.filter p ++ ts.filter p ∧
      ∀ t ∈ (ts.foldl infixStep st).operator_stack, p t = false := by
  induction ts generalizing st with
  | nil => simpa using hs
  | cons t ts ih =>
    obtain ⟨h1, h2⟩ := infixStep_filter p hp st t hs
    obtain ⟨h3, h4⟩ := ih (infixStep st t) h2
    refine ⟨?_, h4⟩
    rw [List.foldl_cons, h3, h1, List.append_assoc, ← List.filter_append,
      List.singleton_append]

theorem infix_to_postfix_filter (p : Token → Bool)
    (hp : ∀ t, p t = true → isOperand t = true) (ts : List Token) :
    ( infix_to_postfix ts).filter p = ts.filter p := by
  obtain ⟨h1, h2⟩ := foldl_infixStep_filter p hp ts ⟨[], []⟩ (by simp)
  have h3 : (ts.foldl infixStep ⟨[], []⟩).operator_stack.filter p = [] := by
    rw [List.filter_eq_nil_iff]
    intro t ht
    rw [h2 t ht]
    decide
  simp only [ infix_to_postfix, popAll_eq, List.filter_append, h1, h3, List.filter_nil,
    List.nil_append, List.append_nil]

/-- C18. For every token sequence, the operand tokens of the output of
`infix_to_postfix` are the operand tokens of the input, in the same order: for
operands as the code tests them, and for `x` and the non-empty digit strings. -/
theorem infix_to_postfix_operands (ts : List Token) :
    ( infix_to_postfix ts).filter isOperand = ts.filter isOperand ∧
      ( infix_to_postfix ts).filter isLeafText = ts.filter isLeafText :=
  ⟨infix_to_postfix_filter isOperand (fun _ h => h) ts,
    infix_to_postfix_filter isLeafText (fun _ h => leafText_operand h) ts⟩

theorem withoutParens_append (a b : List Token) :
    withoutParens (a ++ b) = withoutParens a ++ withoutParens b := by
  simp only [withoutParens, List.filter_append]

theorem withoutParens_open (b : List Token) :
    withoutParens ("(".toList :: b) = withoutParens b := by
  have h : isParen "(".toList = true := by decide
  simp only [withoutParens, List.filter, h, Bool.not_true]

theorem infixStep_perm (st : PostfixState) (token : Token)
    (h : (isOperand token || is_operator token || isParen token) = true) :
    (withoutParens ((infixStep st token).postfix_tokens ++
        (infixStep st token).operator_stack)).Perm
      (withoutParens (st.postfix_tokens ++ st.operator_stack) ++ withoutParens [token]) := by
  rcases infixStep_shape st token with ⟨_, e⟩ | ⟨_, ht, e⟩ | ⟨_, ht, a, b, _, e, hab⟩ |
    ⟨_, _, a, b, _, e, hab⟩ | ⟨h1, h2, h3, _⟩
  · rw [e, ← withoutParens_append]
    exact List.Perm.filter _ (by
      simp only [List.append_assoc]
      exact List.Perm.append_left _ List.perm_append_comm)
  · rw [e, ← withoutParens_append]
    exact List.Perm.filter _ (by
      simp only [List.append_assoc]
      exact List.Perm.append_left _ (@List.perm_append_comm _ [token] _))
  · rw [e, ht]
    have hc : withoutParens [")".toList] = [] := by decide
    rw [hc, List.append_nil]
    rcases hab with ⟨h1, h2⟩ | h1
    · rw [h1, h2]
      simp only [List.append_nil]
      exact List.Perm.refl _
    · rw [h1]
      simp only [withoutParens_append, withoutParens_open, List.append_assoc]
      exact List.Perm.refl _
  · rw [e, hab, ← withoutParens_append]
    exact List.Perm.filter _ (by
      simp only [List.append_assoc]
      exact List.Perm.append_left _ (List.Perm.append_left _
        (@List.perm_append_comm _ [token] _)))
  · rw [h1, h2, h3] at h
    exact absurd h (by decide)

theorem foldl_infixStep_perm (ts : List Token) (st : PostfixState)
    (h : onlyExpressionTokens ts = true) :
    (withoutParens ((ts.foldl infixStep st).postfix_tokens ++
        (ts.foldl infixStep st).operator_stack)).Perm
      (withoutParens (st.postfix_tokens ++ st.operator_stack) ++ withoutParens ts) := by
  induction ts generalizing st with
  | nil => simp [withoutParens]
  | cons t ts ih =>
    simp only [onlyExpressionTokens, List.all_cons, Bool.and_eq_true] at h
    have h1 := infixStep_perm st t h.1
    have h2 := ih (infixStep st t) h.2
    rw [List.foldl_cons]
    refine h2.trans ?_
    have e : withoutParens (t :: ts) = withoutParens [t] ++ withoutParens ts := by
      rw [← withoutParens_append]; rfl
    rw [e, ← List.append_assoc]
    exact List.Perm.append_right _ h1

theorem infixStep_no_open (st : PostfixState) (token : Token)
    (h : "(".toList ∉ st.postfix_tokens) :
    "(".toList ∉ (infixStep st token).postfix_tokens := by
  rcases infixStep_shape st token with ⟨hop, e⟩ | ⟨_, _, e⟩ | ⟨_, _, a, b, ha, e, _⟩ |
    ⟨_, _, a, b, ha, e, _⟩ | ⟨_, _, _, e⟩
  · rw [e]
    simp only [List.mem_append, List.mem_singleton, not_or]
    refine ⟨h, fun h2 => ?_⟩
    rw [← h2] at hop
    exact absurd hop (by decide)
  · rw [e]; exact h
  · rw [e]
    simp only [List.mem_append, not_or]
    exact ⟨h, ha⟩
  · rw [e]
    simp only [List.mem_append, not_or]
    exact ⟨h, ha⟩
  · rw [e]; exact h

theorem foldl_infixStep_no_open (ts : List Token) (st : PostfixState)
    (h : "(".toList ∉ st.postfix_tokens) :
    "(".toList ∉ (ts.foldl infixStep st).postfix_tokens := by
  induction ts generalizing st with
  | nil => exact h
  | cons t ts ih => exact ih _ (infixStep_no_open st t h)

theorem infixStep_count_open (st : PostfixState) (token : Token) :
    (infixStep st token).operator_stack.count "(".toList =
      if token = "(".toList then st.operator_stack.count "(".toList + 1
      else if token = ")".toList then st.operator_stack.count "(".toList - 1
      else st.operator_stack.count "(".toList := by
  have hne : ")".toList ≠ "(".toList := by decide
  rcases infixStep_shape st token with ⟨hop, e⟩ | ⟨_, ht, e⟩ | ⟨_, ht, a, b, ha, e, hab⟩ |
    ⟨_, hop, a, b, ha, e, hab⟩ | ⟨_, hp, _, e⟩
  · have h1 : token ≠ "(".toList := by
      intro h2; rw [h2] at hop; exact absurd hop (by decide)
    have h2 : token ≠ ")".toList := by
      intro h2; rw [h2] at hop; exact absurd hop (by decide)
    rw [e]
    simp only [h1, h2, if_false]
  · rw [e, ht]
    simp only [if_true, List.count_cons_self]
  · rw [e, ht]
    simp only [hne, if_false, if_true]
    have hca : a.count "(".toList = 0 := List.count_eq_zero.mpr ha
    rcases hab with ⟨h1, h2⟩ | h1
    · rw [h1, h2, hca]; rfl
    · rw [h1, List.count_append, hca, List.count_cons_self]
      omega
  · have h1 : token ≠ "(".toList := fun h2 => by
      have := operator_not_open hop
      rw [h2] at this
      exact absurd this (by decide)
    have h2 : token ≠ ")".toList := fun h2 => by
      have := operator_not_close hop
      rw [h2] at this
      exact absurd this (by decide)
    have hca : a.count "(".toList = 0 := List.count_eq_zero.mpr ha
    rw [e, hab]
    simp only [h1, h2, if_false, List.count_append, hca, Nat.zero_add]
    rw [List.count_cons_of_ne (Ne.symm h1)]
  · simp only [isParen, Bool.or_eq_false_iff] at hp
    have h1 : token ≠ "(".toList := fun h2 => by
      rw [h2] at hp; exact absurd hp.1 (by decide)
    have h2 : token ≠ ")".toList := fun h2 => by
      rw [h2] at hp; exact absurd hp.2 (by decide)
    rw [e]
    simp only [h1, h2, if_false]

theorem foldl_infixStep_count_open (ts : List Token) (st : PostfixState) :
    (ts.foldl infixStep st).operator_stack.count "(".toList =
      parenDepth (st.operator_stack.count "(".toList) ts := by
  induction ts generalizing st with
  | nil => rfl
  | cons t ts ih =>
    rw [List.foldl_cons, ih, infixStep_count_open]
    simp only [parenDepth]
    split
    · rfl
    · split <;> rfl

theorem parenDepth_eq (ts : List Token) (d : Nat)
    (h : ∀ n, (ts.take n).count ")".toList ≤ d + (ts.take n).count "(".toList) :
    parenDepth d ts + ts.count ")".toList = d + ts.count "(".toList := by
  have hne : ")".toList ≠ "(".toList := by decide
  induction ts generalizing d with
  | nil => simp [parenDepth]
  | cons t ts ih =>
    by_cases h1 : t = "(".toList
    · subst h1
      have h2 : ∀ n, (ts.take n).count ")".toList ≤ (d + 1) + (ts.take n).count "(".toList := by
        intro n
        have := h (n + 1)
        rw [List.take_succ_cons, List.count_cons_self, List.count_cons_of_ne hne] at this
        omega
      have := ih (d + 1) h2
      rw [List.count_cons_self, List.count_cons_of_ne hne]
      simp only [parenDepth, if_true]
      omega
    · by_cases h3 : t = ")".toList
      · subst h3
        have hd : 1 ≤ d := by
          have := h 1
          rw [List.take_succ_cons, List.take_zero, List.count_cons_self,
            List.count_cons_of_ne (Ne.symm hne)] at this
          simpa using this
        have h2 : ∀ n,
            (ts.take n).count ")".toList ≤ (d - 1) + (ts.take n).count "(".toList := by
          intro n
          have := h (n + 1)
          rw [List.take_succ_cons, List.count_cons_self,
            List.count_cons_of_ne (Ne.symm hne)] at this
          omega
        have := ih (d - 1) h2
        rw [List.count_cons_self, List.count_cons_of_ne (Ne.symm hne)]
        simp only [parenDepth, hne, if_false, if_true]
        omega
      · have h2 : ∀ n, (ts.take n).count ")".toList ≤ d + (ts.take n).count "(".toList := by
          intro n
          have := h (n + 1)
          rw [List.take_succ_cons, List.count_cons_of_ne (Ne.symm h3),
            List.count_cons_of_ne (Ne.symm h1)] at this
          exact this
        have := ih d h2
        rw [List.count_cons_of_ne (Ne.symm h3), List.count_cons_of_ne (Ne.symm h1)]
        simp only [parenDepth, h1, h3, if_false]
        exact this

theorem parenDepth_of_balanced (ts : List Token) (h : balanced ts = true) :
    parenDepth 0 ts = 0 := by
  simp only [balanced, Bool.and_eq_true, List.all_eq_true, List.mem_range,
    decide_eq_true_eq] at h
  obtain ⟨hpre, htot⟩ := h
  have hall : ∀ n, (ts.take n).count ")".toList ≤ 0 + (ts.take n).count "(".toList := by
    intro n
    rw [Nat.zero_add]
    by_cases hn : n < ts.length + 1
    · exact hpre n hn
    · have e : ts.take n = ts.take ts.length := by
        rw [List.take_of_length_le (by omega), List.take_length]
      rw [e]
      exact hpre ts.length (by omega)
  have := parenDepth_eq ts 0 hall
  omega

/-- C19. On a sequence of operands, operators and parentheses whose
parentheses are balanced, the output of `infix_to_postfix` is a permutation of
the input without its parentheses: it contains no `(`, and its length is the
number of tokens of the input that are not parentheses. -/
theorem infix_to_postfix_permutation (ts : List Token)
    (h1 : onlyExpressionTokens ts = true) (h2 : balanced ts = true) :
    ( infix_to_postfix ts).Perm (withoutParens ts) ∧
      "(".toList ∉ infix_to_postfix ts ∧
      ( infix_to_postfix ts).length = (withoutParens ts).length := by
  have hperm := foldl_infixStep_perm ts ⟨[], []⟩ h1
  have hclose := foldl_infixStep_no_close ts ⟨[], []⟩ (by simp)
  have hout := foldl_infixStep_no_open ts ⟨[], []⟩ (by simp)
  have hcount := foldl_infixStep_count_open ts ⟨[], []⟩
  simp only [List.count_nil, parenDepth_of_balanced ts h2] at hcount
  have hstack := List.count_eq_zero.mp hcount
  have hopen : "(".toList ∉ (ts.foldl infixStep ⟨[], []⟩).postfix_tokens ++
      (ts.foldl infixStep ⟨[], []⟩).operator_stack := by
    simp only [List.mem_append, not_or]
    exact ⟨hout, hstack⟩
  have hself : withoutParens ((ts.foldl infixStep ⟨[], []⟩).postfix_tokens ++
      (ts.foldl infixStep ⟨[], []⟩).operator_stack) =
      (ts.foldl infixStep ⟨[], []⟩).postfix_tokens ++
        (ts.foldl infixStep ⟨[], []⟩).operator_stack := by
    rw [withoutParens, List.filter_eq_self]
    intro t ht
    have a1 : t ≠ "(".toList := fun e => hopen (e ▸ ht)
    have a2 : t ≠ ")".toList := fun e => hclose (e ▸ ht)
    simp only [isParen, Bool.not_eq_true', Bool.or_eq_false_iff, beq_eq_false_iff_ne, ne_eq]
    exact ⟨a1, a2⟩
  have hp : ( infix_to_postfix ts).Perm (withoutParens ts) := by
    rw [hself] at hperm
    simpa [ infix_to_postfix, popAll_eq, withoutParens] using hperm
  refine ⟨hp, ?_, hp.length_eq⟩
  simpa [ infix_to_postfix, popAll_eq] using hopen

/-- C19, at the tokens of `(1+2)*3`. -/
theorem infix_to_postfix_permutation_witness :
    onlyExpressionTokens (tokenize "(1+2)*3".toList) = true ∧
    balanced (tokenize "(1+2)*3".toList) = true ∧
    ( infix_to_postfix (tokenize "(1+2)*3".toList)).Perm
      ["1".toList, "+".toList, "2".toList, "*".toList, "3".toList] ∧
    ( infix_to_postfix (tokenize "(1+2)*3".toList)).length = 5 :=
  ⟨by decide, by decide,
    (infix_to_postfix_permutation (tokenize "(1+2)*3".toList) (by decide) (by decide)).1,
    (infix_to_postfix_permutation (tokenize "(1+2)*3".toList) (by decide)
      (by decide)).2.2.trans (by decide)⟩

/-- C20. For well-formed trees `s` and `t`, `build_expression_tree` on the
post-order traversal of `s` followed by that of `t` returns `t`: the node on top
of the stack, the tree `s` below it being dropped without a check. -/
theorem build_expression_tree_two (s t : Tree)
    (hs : wellFormed s = true) (ht : wellFormed t = true) :
    build_expression_tree (postorder s ++ postorder t) = some t := by
  have h1 := buildLoop_postorder s hs (postorder t) []
  have h2 := buildLoop_postorder t ht [] [s]
  simp only [List.append_nil] at h2
  simp only [build_expression_tree, h1, h2, buildLoop]

/-- C20, at the postfix `1 2` and at the input `1 2`, which evaluates to 2. -/
theorem build_expression_tree_two_witness :
    wellFormed (.leaf "1".toList) = true ∧ wellFormed (.leaf "2".toList) = true ∧
    build_expression_tree ["1".toList, "2".toList] = some (.leaf "2".toList) ∧
    evaluate_expression pow_to_int "1 2".toList 0 = some (.value 2) :=
  ⟨by decide, by decide,
    build_expression_tree_two (.leaf "1".toList) (.leaf "2".toList) (by decide) (by decide),
    by decide⟩

end CalcTree
